import Mathlib

/-!
# Execution engine of the multi-venue trading platform

A shallow embedding of three parts of the execution engine:

* `internal/order/order.go`: the order pipeline (`processOrder`),
* `internal/reconciliation/reconciler.go`: the reconciliation cycle (`Reconcile`),
* `internal/stream/aggregator.go`: the trade stream aggregator (`GetStream`, `fanIn`,
  `checkStreamHealth`, `reconnectStream`).

Conventions of the embedding.

* Prices and quantities (`float64` in the source) are values of the type `F64`: a finite number,
  held as its exact rational value, an infinity or a NaN. A product is the exact product rounded
  to the nearest binary64 number, ties to the even significand (`roundF64`); numeric constants
  of the source are rounded the same way. The two zeros are not told apart.
* Errors (`error` in the source) are strings, a fallible call returns `Except String _`.
* Every call to a collaborator (market data, risk client, venue, store) is recorded, in program
  order, in a list of events returned next to the result.
* Wall-clock fields (`CreatedAt`, `UpdatedAt`) are left out of the records.
* Tasks that run side by side are a schedule: a list of steps, each of which runs to its end
  before the next one starts.
-/

namespace TradeBot

/-! ## Data model (`internal/order/order.go`, lines 15-57) -/

/-- Order type, `Type` in the source (`Limit`, `Market`). -/
inductive OrderType where
  | Limit
  | Market
  deriving DecidableEq, Repr

/-- Order side. -/
inductive Side where
  | Buy
  | Sell
  deriving DecidableEq, Repr

/-- Order status, in the order of the source's `iota` block. -/
inductive Status where
  | Pending
  | SentToExchange
  | PartiallyFilled
  | Filled
  | Cancelled
  | Failed
  | Rejected
  deriving DecidableEq, Repr

/-! ## Floating point (`float64`) -/

/-- Value of type `float64`: a finite number, held as its exact rational value, an infinity with
its sign, or a NaN. -/
inductive F64 where
  | finite (q : ℚ)
  | inf (negative : Bool)
  | nan
  deriving DecidableEq, Repr

/-- Number of binary digits of `n`; the first argument bounds the number of halvings and is
taken to be `n` itself. -/
def bitLength : Nat → Nat → Nat
  | 0, _ => 0
  | fuel + 1, n => if n = 0 then 0 else bitLength fuel (n / 2) + 1

/-- The integer `k` with `2 ^ k ≤ n / d < 2 ^ (k + 1)`, for positive `n` and `d`. -/
def floorLog2 (n d : Nat) : Int :=
  let k : Int := (bitLength n n : Int) - (bitLength d d : Int)
  if d * 2 ^ k.toNat ≤ n * 2 ^ (-k).toNat then k else k - 1

/-- Rounding of the positive rational `n / d` to binary64, to nearest, ties to the even
significand: the spacing of the binary64 numbers around `n / d` is `2 ^ e` with
`e = max (k - 52) (-1074)`, where `k = floorLog2 n d` (53 bits of precision, smallest exponent
`-1074`); the result is `m * 2 ^ e` for the integer `m` nearest to `n / (d * 2 ^ e)`, or `none`
when that is `2 ^ 1024` or more, which is an overflow. -/
def roundMagnitude (n d : Nat) : Option ℚ :=
  let e : Int := max (floorLog2 n d - 52) (-1074)
  let num := n * 2 ^ (-e).toNat
  let den := d * 2 ^ e.toNat
  let q := num / den
  let r := num % den
  let m :=
    if 2 * r < den then q
    else if den < 2 * r then q + 1
    else if q % 2 = 0 then q else q + 1
  if 971 ≤ e ∧ 2 ^ 53 ≤ m * 2 ^ (e - 971).toNat then none
  else some (mkRat (m * 2 ^ e.toNat) (2 ^ (-e).toNat))

/-- Rounding of a rational to binary64 (IEEE 754, round to nearest, ties to even); an overflow
gives the infinity of the sign of the number. -/
def roundF64 (q : ℚ) : F64 :=
  if q = 0 then F64.finite 0
  else
    match roundMagnitude q.num.natAbs q.den with
    | none => F64.inf (decide (q < 0))
    | some r => F64.finite (if q < 0 then -r else r)

/-- Product of two `float64` values: the exact product `a * b`, written
`mkRat (a.num * b.num) (a.den * b.den)`, rounded; a NaN operand or zero times an infinity gives
a NaN. -/
def F64.mul : F64 → F64 → F64
  | F64.nan, _ => F64.nan
  | _, F64.nan => F64.nan
  | F64.finite a, F64.finite b => roundF64 (mkRat (a.num * b.num) (a.den * b.den))
  | F64.finite a, F64.inf s => if a = 0 then F64.nan else F64.inf (xor s (decide (a < 0)))
  | F64.inf s, F64.finite b => if b = 0 then F64.nan else F64.inf (xor s (decide (b < 0)))
  | F64.inf s, F64.inf t => F64.inf (xor s t)

/-- Comparison `a < b` of two `float64` values; false as soon as one of them is a NaN. -/
def F64.lt : F64 → F64 → Bool
  | F64.nan, _ => false
  | _, F64.nan => false
  | F64.finite a, F64.finite b => decide (a < b)
  | F64.finite _, F64.inf s => !s
  | F64.inf s, F64.finite _ => s
  | F64.inf s, F64.inf t => s && !t

/-- Comparison `a <= b` of two `float64` values; false as soon as one of them is a NaN. -/
def F64.le : F64 → F64 → Bool
  | F64.nan, _ => false
  | _, F64.nan => false
  | F64.finite a, F64.finite b => decide (a ≤ b)
  | F64.finite _, F64.inf s => !s
  | F64.inf s, F64.finite _ => s
  | F64.inf s, F64.inf t => s || !t

instance : Mul F64 := ⟨F64.mul⟩

instance : LT F64 := ⟨fun a b => F64.lt a b = true⟩

instance : LE F64 := ⟨fun a b => F64.le a b = true⟩

instance (a b : F64) : Decidable (a < b) :=
  inferInstanceAs (Decidable (F64.lt a b = true))

instance (a b : F64) : Decidable (a ≤ b) :=
  inferInstanceAs (Decidable (F64.le a b = true))

/-- An integer constant of the source, converted to `float64`. -/
instance (n : Nat) : OfNat F64 n := ⟨roundF64 (mkRat n 1)⟩

/-- A decimal constant of the source, `m * 10 ^ (-e)` or `m * 10 ^ e`, converted to `float64`. -/
instance : OfScientific F64 :=
  ⟨fun m s e => if s then roundF64 (mkRat m (10 ^ e)) else roundF64 (mkRat (m * 10 ^ e) 1)⟩

/-- Trading order. The field `OType` is the source's `Type`. `RetryCount` is an `int` that only
ever receives the loop index of the placement loop, hence a natural number. -/
structure Order where
  ID : String
  Symbol : String
  OType : OrderType
  Side : TradeBot.Side
  Price : F64
  Quantity : F64
  Exchange : String
  Status : TradeBot.Status
  RetryCount : Nat
  deriving DecidableEq, Repr

/-- Trade execution `db.Trade` (`pkg/db/db.go`, lines 132-143), without `ExecutedAt`. -/
structure Trade where
  OrderID : String
  ExchangeID : String
  Symbol : String
  Price : F64
  Quantity : F64
  Fee : F64
  FeeCurrency : String
  Side : TradeBot.Side
  deriving DecidableEq, Repr

/-- Identity of a channel of trade events: `made n` is the channel created by the `n`-th `make`
of the aggregator, `inbound c` is the channel number `c` handed out by a venue, `nil` is the nil
channel, the zero value of a channel variable. -/
inductive Chan where
  | made (n : Nat)
  | inbound (c : Nat)
  | nil
  deriving DecidableEq, Repr

/-- Real-time trade event `exchange.TradeEvent` (`exchange.go`, lines 21-27). `Exchange` is the
field that `fanIn` assigns; the struct as declared in `exchange.go` lacks it. `Timestamp` is the
time of the event on the source clock, in nanoseconds. -/
structure TradeEvent where
  Symbol : String
  Exchange : String
  Price : F64
  Quantity : F64
  Timestamp : Int
  deriving DecidableEq, Repr

/-! ## Go maps with string keys, as association lists -/

/-- Map read `m[k]`; `none` is `ok = false`. -/
def mapGet {β : Type} : List (String × β) → String → Option β
  | [], _ => none
  | (k', v) :: rest, k => if k' = k then some v else mapGet rest k

/-- Map write `m[k] = v`: the entry of `k` is replaced, or added when there is none. -/
def mapSet {β : Type} : List (String × β) → String → β → List (String × β)
  | [], k, v => [(k, v)]
  | (k', v') :: rest, k, v =>
    if k' = k then (k, v) :: rest else (k', v') :: mapSet rest k v

/-! ## Venues (`internal/exchange/exchange.go`) -/

/-- Venue capability, the methods of `exchange.Interface` that the engine calls.
`PlaceOrder n o` is the answer of the venue to a placement of `o` when `n` placements were
already attempted during the current run of the pipeline, so a venue may answer each attempt
differently. `GetOrderStatus id` is the answer of the venue during one reconciliation cycle.
`StreamTrades n symbol` is the answer to a stream request when the aggregator has made `n`
stream requests before: an error, or the number of the channel handed out. -/
structure Interface where
  PlaceOrder : Nat → Order → Except String String
  GetOrderStatus : String → Except String Status
  StreamTrades : Nat → String → Except String Nat

/-- Venue registry `exchange.Manager`: the map from venue name to capability. The reconciler
calls a method `GetTradeDetails(exchange, orderID)` of the registry that `exchange.go` does not
define; its answers are the field `tradeDetails`. -/
structure ExchangeManager where
  exchanges : List (String × Interface)
  tradeDetails : String → String → Except String (List Trade)

/-- Lookup of a venue by name (`exchange.go`, lines 40-43); `none` is `ok = false`. -/
def ExchangeManager.GetExchange (em : ExchangeManager) (name : String) : Option Interface :=
  mapGet em.exchanges name

/-- Modelled from the spec: `GetAllExchanges`, called by the aggregator and not defined in
`exchange.go`, is the enumeration of all (name, capability) pairs of the registry. -/
def ExchangeManager.GetAllExchanges (em : ExchangeManager) : List (String × Interface) :=
  em.exchanges

/-- Method `GetTradeDetails` of the registry, as called by `handleFilledOrder`. -/
def ExchangeManager.GetTradeDetails (em : ExchangeManager) (exchangeName orderID : String) :
    Except String (List Trade) :=
  em.tradeDetails exchangeName orderID

/-! ## Order pipeline (`internal/order/order.go`) -/

/-- Risk authority `risk.Client`: one synchronous query. -/
structure RiskClient where
  CheckOrder : Order → Except String Bool

/-- Order manager. `marketPrice` is the market data source behind `getMarketPrice`; the source
ships the stub `mockMarketPrice`. `maxRetries` is an `int` assigned only by `NewManager` (3).
`retryDelay` is in nanoseconds. -/
structure Manager where
  exchangeManager : ExchangeManager
  riskClient : RiskClient
  marketPrice : String → Except String F64
  slippageProtection : Bool
  maxRetries : Nat
  retryDelay : Nat

/-- The body of `getMarketPrice` as shipped (lines 176-180): always `100.0, nil`. -/
def mockMarketPrice : String → Except String F64 :=
  fun _ => Except.ok 100

/-- Constructor `NewManager` (lines 72-85); slippage protection starts disabled. -/
def NewManager (em : ExchangeManager) (rc : RiskClient) : Manager :=
  { exchangeManager := em
    riskClient := rc
    marketPrice := mockMarketPrice
    slippageProtection := false
    maxRetries := 3
    retryDelay := 500000000 }

/-- Setter `SetSlippageProtection` (lines 88-90). -/
def Manager.SetSlippageProtection (m : Manager) (enabled : Bool) : Manager :=
  { m with slippageProtection := enabled }

/-- Method `getMarketPrice` (lines 176-180), reading the market data source of the manager. -/
def Manager.getMarketPrice (m : Manager) (symbol : String) : Except String F64 :=
  m.marketPrice symbol

/-- Calls that `processOrder` makes to its collaborators. `logOrder o msg` is a call of
`m.logOrder(o, msg)`, which writes the order as it is at that moment to the store. -/
inductive Event where
  | getMarketPrice (symbol : String)
  | checkOrder (o : Order)
  | sleep (d : Nat)
  | getExchange (name : String)
  | placeOrder (name : String) (o : Order)
  | logOrder (o : Order) (message : String)
  deriving DecidableEq, Repr

/-- Price adjustment of the slippage guard (lines 125-130). -/
def adjustPrice (o : Order) (marketPrice : F64) : Order :=
  if o.Side = Side.Buy ∧ o.Price < marketPrice then
    { o with Price := marketPrice * 1.005 }
  else if o.Side = Side.Sell ∧ o.Price > marketPrice then
    { o with Price := marketPrice * 0.995 }
  else o

/-- Placement loop `for i := 0; i <= m.maxRetries; i++` (lines 146-173). The first argument is the
number of iterations left (`maxRetries + 1 - i`), the second is the loop index `i`. -/
def placeLoop (m : Manager) : Nat → Nat → Order → Order × List Event
  | 0, _, o => (o, [])
  | n + 1, i, o =>
    let o1 := { o with RetryCount := i }
    let slept := if i > 0 then [Event.sleep (m.retryDelay * i)] else []
    match m.exchangeManager.GetExchange o1.Exchange with
    | none =>
      let o2 := { o1 with Status := Status.Failed }
      (o2, slept ++ [Event.getExchange o1.Exchange,
        Event.logOrder o2 ("Exchange not found: " ++ o2.Exchange)])
    | some ex =>
      match ex.PlaceOrder i o1 with
      | Except.error err =>
        let o2 := { o1 with Status := Status.Failed }
        let rest := placeLoop m n (i + 1) o2
        (rest.1, slept ++ [Event.getExchange o1.Exchange, Event.placeOrder o1.Exchange o1,
          Event.logOrder o2
            ("Placement attempt " ++ toString (i + 1) ++ " failed: " ++ err)] ++ rest.2)
      | Except.ok exchangeID =>
        let o2 := { o1 with ID := exchangeID, Status := Status.SentToExchange }
        (o2, slept ++ [Event.getExchange o1.Exchange, Event.placeOrder o1.Exchange o1,
          Event.logOrder o2 "Order sent to exchange"])

/-- Risk gate followed by placement (lines 133-174). -/
def riskAndPlace (m : Manager) (o : Order) : Order × List Event :=
  match m.riskClient.CheckOrder o with
  | Except.error err =>
    let o1 := { o with Status := Status.Failed }
    (o1, [Event.checkOrder o, Event.logOrder o1 ("Risk check failed: " ++ err)])
  | Except.ok false =>
    let o1 := { o with Status := Status.Rejected }
    (o1, [Event.checkOrder o, Event.logOrder o1 "Rejected by risk controller"])
  | Except.ok true =>
    let r := placeLoop m (m.maxRetries + 1) 0 o
    (r.1, Event.checkOrder o :: r.2)

/-- Pipeline `processOrder` (lines 111-174): slippage guard, risk gate, placement with bounded
retry. Returns the order as the run leaves it and the calls made, in order. -/
def processOrder (m : Manager) (o : Order) : Order × List Event :=
  if m.slippageProtection = true ∧ o.OType = OrderType.Limit then
    match m.getMarketPrice o.Symbol with
    | Except.error err =>
      let o1 := { o with Status := Status.Failed }
      (o1, [Event.getMarketPrice o.Symbol,
        Event.logOrder o1 ("Failed to get market price: " ++ err)])
    | Except.ok marketPrice =>
      let r := riskAndPlace m (adjustPrice o marketPrice)
      (r.1, Event.getMarketPrice o.Symbol :: r.2)
  else
    riskAndPlace m o

/-- Orders handed to the risk gate during a run. -/
def riskOrders : List Event → List Order
  | [] => []
  | Event.checkOrder o :: es => o :: riskOrders es
  | _ :: es => riskOrders es

/-- Orders handed to a venue by `PlaceOrder` during a run. -/
def placedOrders : List Event → List Order
  | [] => []
  | Event.placeOrder _ o :: es => o :: placedOrders es
  | _ :: es => placedOrders es

/-- Venue lookups made during a run. -/
def venueLookups : List Event → List String
  | [] => []
  | Event.getExchange n :: es => n :: venueLookups es
  | _ :: es => venueLookups es

/-- Store writes of a run: the logged order and the message. -/
def loggedOrders : List Event → List (Order × String)
  | [] => []
  | Event.logOrder o msg :: es => (o, msg) :: loggedOrders es
  | _ :: es => loggedOrders es

/-- Statuses written to the order during a run; every assignment to `o.Status` in `processOrder`
is followed at once by `logOrder`, so these are the statuses of the logged orders. -/
def writtenStatuses (es : List Event) : List Status :=
  (loggedOrders es).map (fun p => p.1.Status)

/-- The order as `processOrder` hands it to the venue at loop index `j` of the placement loop,
when `o` is the order that entered the loop: the retry count is `j`, and from the second
attempt on the status is the `Failed` written by the attempt before. -/
def attemptOrder (o : Order) (j : Nat) : Order :=
  { o with RetryCount := j, Status := if j = 0 then o.Status else Status.Failed }

/-- Transitions of the state machine that the pipeline owns: `Pending` to `Rejected`, to `Failed`
or to `SentToExchange`. -/
def PipelineStep (a b : Status) : Prop :=
  a = Status.Pending ∧ (b = Status.Rejected ∨ b = Status.Failed ∨ b = Status.SentToExchange)

instance : DecidableRel PipelineStep :=
  fun a b => inferInstanceAs
    (Decidable (a = Status.Pending ∧
      (b = Status.Rejected ∨ b = Status.Failed ∨ b = Status.SentToExchange)))

/-- Progress along the pipeline-owned transitions only: each status written either repeats the
status the order already has or is reached from it by a pipeline-owned transition. -/
def PipelineProgress (start : Status) (written : List Status) : Prop :=
  List.Chain (fun a b => a = b ∨ PipelineStep a b) start written

/-- Transitions that the placement loop takes between two attempts, next to the pipeline-owned
ones: out of the `Failed` written by a failed attempt, to `Failed` again or to
`SentToExchange`. -/
def RetryStep (a b : Status) : Prop :=
  PipelineStep a b ∨ (a = Status.Failed ∧ (b = Status.Failed ∨ b = Status.SentToExchange))

/-! ## Store (`pkg/db/db.go`) -/

/-- Store `db.TimescaleDB`: the rows of the tables `orders` and `trades` (schema in
`CreateSchema`, lines 84-130). The reconciler calls `GetOrdersForReconciliation`, which `db.go`
does not define; the field `needsReconciliation` is the row filter of that query. Every call to
the store may end in an error: `calls` counts the calls made so far, and `fails n` tells whether
the call number `n` fails. A call that fails leaves the rows as they are. -/
structure TimescaleDB where
  orders : List Order
  trades : List Trade
  needsReconciliation : Order → Bool
  calls : Nat
  fails : Nat → Bool

/-- Insert `LogTrade` (lines 64-81): a plain `INSERT` of one row into `trades`; the error of
`Exec` is the error of the call. -/
def TimescaleDB.LogTrade (db : TimescaleDB) (t : Trade) : Except String Unit × TimescaleDB :=
  if db.fails db.calls then
    (Except.error "exec failed", { db with calls := db.calls + 1 })
  else
    (Except.ok (), { db with trades := db.trades ++ [t], calls := db.calls + 1 })

/-- Modelled from the spec: `UpdateOrderStatus(id, status)`, called by the reconciler and not
defined in `db.go`, is `update_order_status(local_id, status)`, a write of the status of the row
with that id, which may fail as every call to the store. -/
def TimescaleDB.UpdateOrderStatus (db : TimescaleDB) (id : String) (status : Status) :
    Except String Unit × TimescaleDB :=
  if db.fails db.calls then
    (Except.error "exec failed", { db with calls := db.calls + 1 })
  else
    (Except.ok (),
      { db with
        orders := (db.orders.map
          (fun o => if o.ID = id then { o with Status := status } else o)),
        calls := db.calls + 1 })

/-- Modelled from the spec: `GetOrdersForReconciliation`, not defined in `db.go`, returns the
stored orders that require reconciliation, or fails as every call to the store. -/
def TimescaleDB.GetOrdersForReconciliation (db : TimescaleDB) :
    Except String (List Order) × TimescaleDB :=
  if db.fails db.calls then
    (Except.error "query failed", { db with calls := db.calls + 1 })
  else
    (Except.ok (db.orders.filter db.needsReconciliation), { db with calls := db.calls + 1 })

/-- Modelled from the spec: the orders requiring reconciliation are those with status
sent-to-venue or partially-filled (§4.3, step 1). -/
def openOrder (o : Order) : Bool :=
  decide (o.Status = Status.SentToExchange) || decide (o.Status = Status.PartiallyFilled)

/-- Rows of `trades` for the order id `id`. -/
def TimescaleDB.tradeRows (db : TimescaleDB) (id : String) : List Trade :=
  db.trades.filter (fun t => decide (t.OrderID = id))

/-- Stored statuses of the rows of `orders` with id `id`. -/
def TimescaleDB.storedStatus (db : TimescaleDB) (id : String) : List Status :=
  (db.orders.filter (fun o => decide (o.ID = id))).map (fun o => o.Status)

/-! ## Reconciliation (`internal/reconciliation/reconciler.go`) -/

/-- Reconciler: its venue registry; the store is passed as state. -/
structure Reconciler where
  exchangeManager : ExchangeManager

/-- Calls that a reconciliation cycle makes to its collaborators, and the two log lines that
report a failed write to the store: `updateFailed` is "Failed to update order" (line 78),
`logTradeFailed` is "Error logging trade" (line 106). -/
inductive RecEvent where
  | getExchange (name : String)
  | getOrderStatus (name : String) (id : String)
  | updateOrderStatus (id : String) (status : Status)
  | updateFailed (id : String) (status : Status)
  | getTradeDetails (name : String) (id : String)
  | logTrade (t : Trade)
  | logTradeFailed (t : Trade)
  deriving DecidableEq, Repr

/-- Outcome of the handling of a list of orders: the orders as the cycle leaves them, the store,
and the calls made. -/
structure Cycle where
  orders : List Order
  db : TimescaleDB
  events : List RecEvent

/-- Loop of `handleFilledOrder` over the trades (lines 104-108): log each trade; a failed insert
is reported and the loop goes on with the next trade. -/
def logTrades : TimescaleDB → List Trade → TimescaleDB × List RecEvent
  | db, [] => (db, [])
  | db, t :: ts =>
    let w := db.LogTrade t
    let rest := logTrades w.2 ts
    match w.1 with
    | Except.ok _ => (rest.1, RecEvent.logTrade t :: rest.2)
    | Except.error _ => (rest.1, RecEvent.logTrade t :: RecEvent.logTradeFailed t :: rest.2)

/-- Handler `handleFilledOrder` (lines 95-112): fetch the trade details, log each trade. -/
def handleFilledOrder (r : Reconciler) (db : TimescaleDB) (o : Order) :
    TimescaleDB × List RecEvent :=
  match r.exchangeManager.GetTradeDetails o.Exchange o.ID with
  | Except.error _ => (db, [RecEvent.getTradeDetails o.Exchange o.ID])
  | Except.ok trades =>
    let w := logTrades db trades
    (w.1, RecEvent.getTradeDetails o.Exchange o.ID :: w.2)

/-- Handler `handleCancelledOrder` (lines 114-120): it writes to the process log only, the store
stays as it is and no collaborator is called. -/
def handleCancelledOrder (_r : Reconciler) (db : TimescaleDB) (_o : Order) :
    TimescaleDB × List RecEvent :=
  (db, [])

/-- Body of the loop of `Reconcile` (lines 56-88) for one order. A failed status write is
reported (lines 77-79) and the handling goes on: the order in memory carries the venue's status
and the handler of the status runs, while the stored row is as it was. -/
def reconcileOrder (r : Reconciler) (db : TimescaleDB) (o : Order) :
    Order × TimescaleDB × List RecEvent :=
  match r.exchangeManager.GetExchange o.Exchange with
  | none => (o, db, [RecEvent.getExchange o.Exchange])
  | some ex =>
    match ex.GetOrderStatus o.ID with
    | Except.error _ =>
      (o, db, [RecEvent.getExchange o.Exchange, RecEvent.getOrderStatus o.Exchange o.ID])
    | Except.ok status =>
      if o.Status ≠ status then
        let o1 := { o with Status := status }
        let w := db.UpdateOrderStatus o.ID status
        let db1 := w.2
        let calls := [RecEvent.getExchange o.Exchange, RecEvent.getOrderStatus o.Exchange o.ID,
          RecEvent.updateOrderStatus o.ID status] ++
          (match w.1 with
            | Except.ok _ => []
            | Except.error _ => [RecEvent.updateFailed o.ID status])
        match status with
        | Status.Filled =>
          let h := handleFilledOrder r db1 o1
          (o1, h.1, calls ++ h.2)
        | Status.Cancelled =>
          let h := handleCancelledOrder r db1 o1
          (o1, h.1, calls ++ h.2)
        | _ => (o1, db1, calls)
      else
        (o, db, [RecEvent.getExchange o.Exchange, RecEvent.getOrderStatus o.Exchange o.ID])

/-- Loop of `Reconcile` (lines 55-89) over the orders fetched from the store. -/
def reconcileOrders (r : Reconciler) : TimescaleDB → List Order → Cycle
  | db, [] => { orders := [], db := db, events := [] }
  | db, o :: os =>
    let s := reconcileOrder r db o
    let rest := reconcileOrders r s.2.1 os
    { orders := s.1 :: rest.orders, db := rest.db, events := s.2.2 ++ rest.events }

/-- One cycle `Reconcile` (lines 46-93): its error result, and what the cycle did. When the
orders cannot be fetched the cycle returns the error "error fetching orders" and handles no
order (lines 50-53). -/
def Reconcile (r : Reconciler) (db : TimescaleDB) : Except String Unit × Cycle :=
  match db.GetOrdersForReconciliation with
  | (Except.error e, db1) =>
    (Except.error ("error fetching orders: " ++ e), { orders := [], db := db1, events := [] })
  | (Except.ok orders, db1) => (Except.ok (), reconcileOrders r db1 orders)

/-- Calls of `UpdateOrderStatus` made during a cycle: order id and status written. -/
def statusUpdates : List RecEvent → List (String × Status)
  | [] => []
  | RecEvent.updateOrderStatus id st :: es => (id, st) :: statusUpdates es
  | _ :: es => statusUpdates es

/-- The status write that the specification asks of a cycle for one order (§4.3, steps 2-4): the
venue's status under the order's id, when the venue is registered, its status query succeeds and
the status differs from the stored one. -/
def venueDisagrees (r : Reconciler) (o : Order) : Option (String × Status) :=
  match r.exchangeManager.GetExchange o.Exchange with
  | none => none
  | some ex =>
    match ex.GetOrderStatus o.ID with
    | Except.error _ => none
    | Except.ok status => if o.Status ≠ status then some (o.ID, status) else none

/-- Transitions of the state machine that the reconciler owns. -/
def ReconcilerStep (a b : Status) : Prop :=
  (a = Status.SentToExchange ∧
    (b = Status.PartiallyFilled ∨ b = Status.Filled ∨ b = Status.Cancelled)) ∨
  (a = Status.PartiallyFilled ∧ (b = Status.Filled ∨ b = Status.Cancelled))

instance : DecidableRel ReconcilerStep :=
  fun a b => inferInstanceAs
    (Decidable ((a = Status.SentToExchange ∧
      (b = Status.PartiallyFilled ∨ b = Status.Filled ∨ b = Status.Cancelled)) ∨
      (a = Status.PartiallyFilled ∧ (b = Status.Filled ∨ b = Status.Cancelled))))

/-- Terminal statuses of the state machine. -/
def Status.terminal (s : Status) : Bool :=
  match s with
  | Status.Filled => true
  | Status.Cancelled => true
  | Status.Failed => true
  | Status.Rejected => true
  | _ => false

/-- The trade details that the registry returns for an order id are trades of that order. -/
def TradesBelong (em : ExchangeManager) : Prop :=
  ∀ (name id : String) (ts : List Trade),
    em.GetTradeDetails name id = Except.ok ts → ∀ t ∈ ts, t.OrderID = id

/-! ## Trade stream aggregator (`internal/stream/aggregator.go`) -/

/-- A started fan-in task `go a.fanIn(exchangeName, symbol, in, out)`. -/
structure FanIn where
  exchangeName : String
  symbol : String
  inCh : Chan
  outCh : Chan
  deriving DecidableEq, Repr

/-- Aggregator state. Next to the two maps of the source it counts the channels created by
`make` (`made`) and the stream requests sent to venues (`opened`), lists the fan-in tasks
started (`fanIns`), and lists the channels that were closed (`closed`), by the aggregator or by
a venue whose stream terminated. -/
structure Aggregator where
  exchangeManager : ExchangeManager
  streams : List (String × List (String × Chan))
  aggregated : List (String × Chan)
  made : Nat
  opened : Nat
  fanIns : List FanIn
  closed : List Chan

/-- Constructor `NewAggregator` (lines 21-27). -/
def NewAggregator (em : ExchangeManager) : Aggregator :=
  { exchangeManager := em, streams := [], aggregated := [], made := 0, opened := 0,
    fanIns := [], closed := [] }

/-- Loop of `createStream` over the venues (lines 66-75): request the stream; on error go on
with the next venue; otherwise record the inbound channel under `streams[symbol][name]` and
start the fan-in task. -/
def openStreams (symbol : String) (aggCh : Chan) :
    List (String × Interface) → Aggregator → Aggregator
  | [], a => a
  | (name, ex) :: rest, a =>
    match ex.StreamTrades a.opened symbol with
    | Except.error _ => openStreams symbol aggCh rest { a with opened := a.opened + 1 }
    | Except.ok c =>
      openStreams symbol aggCh rest
        { a with
          opened := a.opened + 1,
          streams := (mapSet a.streams symbol
            (mapSet ((mapGet a.streams symbol).getD []) name (Chan.inbound c))),
          fanIns := (a.fanIns ++ [FanIn.mk name symbol (Chan.inbound c) aggCh]) }

/-- Method `createStream` (lines 48-78). -/
def createStream (a : Aggregator) (symbol : String) : Chan × Aggregator :=
  match mapGet a.aggregated symbol with
  | some ch => (ch, a)
  | none =>
    let aggCh := Chan.made a.made
    let a1 := { a with
      made := a.made + 1,
      aggregated := (mapSet a.aggregated symbol aggCh),
      streams := (mapSet a.streams symbol []) }
    (aggCh, openStreams symbol aggCh a1.exchangeManager.GetAllExchanges a1)

/-- Method `GetStream` (lines 36-46); its error result is always `nil`. -/
def GetStream (a : Aggregator) (symbol : String) : Chan × Aggregator :=
  match mapGet a.aggregated symbol with
  | some ch => (ch, a)
  | none => createStream a symbol

/-- The aggregator after `GetStream` was called for each symbol of a list, in order. -/
def subscribeAll (a : Aggregator) (symbols : List String) : Aggregator :=
  symbols.foldl (fun s symbol => (GetStream s symbol).2) a

/-- Capacity of an aggregated channel: `make(chan exchange.TradeEvent, 1000)` (line 58). -/
def aggregatedCapacity : Nat := 1000

/-- One iteration of the loop of `fanIn` (lines 81-89) on an aggregated channel of capacity `cap`
that holds `buffer`: stamp the venue name on the event, then `select` with a `default` branch,
which sends when the channel has room and drops the event otherwise. Returns the content of the
channel after the iteration and the event sent, if any. The parameter `symbol` is used in the log
line of the `default` branch only. -/
def fanInIteration (exchangeName _symbol : String) (cap : Nat) (buffer : List TradeEvent)
    (trade : TradeEvent) : List TradeEvent × Option TradeEvent :=
  let trade1 := { trade with Exchange := exchangeName }
  if buffer.length < cap then (buffer ++ [trade1], some trade1) else (buffer, none)

/-- What happens next on one aggregated channel: the inbound channel of a fan-in task that feeds
it delivers an event, which starts one iteration of the loop of the task, or the consumer
receives one event. -/
inductive Step where
  | deliver (f : FanIn) (trade : TradeEvent)
  | receive
  deriving DecidableEq, Repr

/-- One aggregated channel at work: the events it holds, the events its consumer has received,
and two records of the iterations of the fan-in tasks that feed it: for each iteration the
task, the event as delivered and the number of events the channel held at the moment of
forwarding (`attempts`), and for each send the task and the event sent (`sent`). -/
structure Feed where
  buffer : List TradeEvent
  received : List TradeEvent
  attempts : List (FanIn × TradeEvent × Nat)
  sent : List (FanIn × TradeEvent)

/-- An aggregated channel that holds `buffer`, before anything happens. -/
def Feed.start (buffer : List TradeEvent) : Feed :=
  { buffer := buffer, received := [], attempts := [], sent := [] }

/-- One step on an aggregated channel of capacity `cap`. A consumer that finds the channel empty
waits, which leaves everything as it is. -/
def Feed.step (cap : Nat) (s : Feed) : Step → Feed
  | Step.deliver f trade =>
    let r := fanInIteration f.exchangeName f.symbol cap s.buffer trade
    { buffer := r.1
      received := s.received
      attempts := s.attempts ++ [(f, trade, s.buffer.length)]
      sent := s.sent ++ (r.2.map (fun t => (f, t))).toList }
  | Step.receive =>
    match s.buffer with
    | [] => s
    | t :: rest => { s with buffer := rest, received := s.received ++ [t] }

/-- A schedule of steps on an aggregated channel of capacity `cap`. -/
def Feed.run (cap : Nat) (s : Feed) (steps : List Step) : Feed :=
  steps.foldl (Feed.step cap) s

/-- The inbound sequence of a fan-in task in a schedule: the events its inbound channel
delivers, in order. -/
def inboundOf (f : FanIn) (steps : List Step) : List TradeEvent :=
  steps.filterMap (fun st =>
    match st with
    | Step.deliver g trade => if g = f then some trade else none
    | Step.receive => none)

/-- The iterations of a fan-in task: the event as delivered and the number of events the
aggregated channel held at the moment of forwarding. -/
def Feed.attemptsOf (s : Feed) (f : FanIn) : List (TradeEvent × Nat) :=
  (s.attempts.filter (fun p => decide (p.1 = f))).map (fun p => p.2)

/-- The events a fan-in task has forwarded, in order. -/
def Feed.sentBy (s : Feed) (f : FanIn) : List TradeEvent :=
  (s.sent.filter (fun p => decide (p.1 = f))).map (fun p => p.2)

/-- An event stamped with a venue name and otherwise unmodified. -/
def stamp (exchangeName : String) (trade : TradeEvent) : TradeEvent :=
  { trade with Exchange := exchangeName }

/-- Health check `checkStreamHealth` (lines 106-119): the reconnects it schedules, as pairs of
venue name and symbol, one for each entry of `streams` whose channel is nil. -/
def checkStreamHealth (a : Aggregator) : List (String × String) :=
  a.streams.flatMap (fun entry =>
    entry.2.filterMap (fun inner =>
      if inner.2 = Chan.nil then some (inner.1, entry.1) else none))

/-- Builtin `close(ch)`: closing the nil channel or a closed channel is a run-time panic, the
error of the result. -/
def closeChan (a : Aggregator) (ch : Chan) : Except String Aggregator :=
  if ch = Chan.nil then Except.error "close of nil channel"
  else if ch ∈ a.closed then Except.error "close of closed channel"
  else Except.ok { a with closed := ch :: a.closed }

/-- Method `reconnectStream` (lines 121-146). The error of the result is a run-time panic: of
`close`, or of the assignment `a.streams[symbol][exchangeName] = newCh` when `a.streams` has no
map for the symbol. A missing `a.aggregated[symbol]` reads as the nil channel. -/
def reconnectStream (a : Aggregator) (exchangeName symbol : String) : Except String Aggregator :=
  match a.exchangeManager.GetExchange exchangeName with
  | none => Except.ok a
  | some ex =>
    let closing :=
      match mapGet ((mapGet a.streams symbol).getD []) exchangeName with
      | some oldCh => closeChan a oldCh
      | none => Except.ok a
    match closing with
    | Except.error p => Except.error p
    | Except.ok a1 =>
      match ex.StreamTrades a1.opened symbol with
      | Except.error _ => Except.ok { a1 with opened := a1.opened + 1 }
      | Except.ok c =>
        match mapGet a1.streams symbol with
        | none => Except.error "assignment to entry in nil map"
        | some inner =>
          Except.ok { a1 with
            opened := a1.opened + 1,
            streams := (mapSet a1.streams symbol (mapSet inner exchangeName (Chan.inbound c))),
            fanIns := (a1.fanIns ++ [FanIn.mk exchangeName symbol (Chan.inbound c)
              ((mapGet a1.aggregated symbol).getD Chan.nil)]) }

/-- The aggregator states that a run of the program reaches: the fresh aggregator, and what
`GetStream`, a completed `reconnectStream` and the closing of a channel by a venue make of a
reached state. -/
inductive Reachable : Aggregator → Prop where
  | fresh (em : ExchangeManager) : Reachable (NewAggregator em)
  | subscribe (a : Aggregator) (symbol : String) :
      Reachable a → Reachable (GetStream a symbol).2
  | reconnect (a a1 : Aggregator) (exchangeName symbol : String) :
      Reachable a → reconnectStream a exchangeName symbol = Except.ok a1 → Reachable a1
  | venueCloses (a : Aggregator) (ch : Chan) :
      Reachable a → Reachable { a with closed := ch :: a.closed }

/-- What holds of every reached aggregator state: each fan-in task started carries the name of
a registered venue and feeds the aggregated channel of its symbol; the aggregated channels were
created by `make`, and no two symbols share one; and a symbol with a map of inbound channels has
an aggregated channel. -/
def WellFormed (a : Aggregator) : Prop :=
  (∀ f ∈ a.fanIns, (∃ ex, a.exchangeManager.GetExchange f.exchangeName = some ex) ∧
    mapGet a.aggregated f.symbol = some f.outCh) ∧
  (∀ S ch, mapGet a.aggregated S = some ch → ∃ n, ch = Chan.made n ∧ n < a.made) ∧
  (∀ S S' ch, mapGet a.aggregated S = some ch → mapGet a.aggregated S' = some ch → S = S') ∧
  (∀ S inner, mapGet a.streams S = some inner → ∃ ch, mapGet a.aggregated S = some ch)

/-- Every inbound channel in `streams` is a channel handed out by a venue. -/
def InboundOnly (a : Aggregator) : Prop :=
  ∀ entry ∈ a.streams, ∀ p ∈ entry.2, ∃ c, p.2 = Chan.inbound c

/-! ## Scenarios of the specification (§8) -/

/-- A risk authority that approves every order. -/
def approveAll : RiskClient :=
  { CheckOrder := fun _ => Except.ok true }

/-- A risk authority that denies every order. -/
def denyAll : RiskClient :=
  { CheckOrder := fun _ => Except.ok false }

/-- A venue that accepts every placement with the id `B1`, reports every order filled and
refuses stream requests. -/
def venueB1 : Interface :=
  { PlaceOrder := fun _ _ => Except.ok "B1"
    GetOrderStatus := fun _ => Except.ok Status.Filled
    StreamTrades := fun _ _ => Except.error "not connected" }

/-- A venue whose first two placement attempts fail and whose third one succeeds with the id
`K7`; it fails status queries and hands out the channel numbered by the request. -/
def venueK7 : Interface :=
  { PlaceOrder := fun n _ => if n < 2 then Except.error "transport" else Except.ok "K7"
    GetOrderStatus := fun _ => Except.error "transport"
    StreamTrades := fun n _ => Except.ok n }

/-- A venue that fails every placement, reports every order as pending and hands out the
channel numbered by the request. -/
def venueDown : Interface :=
  { PlaceOrder := fun _ _ => Except.error "transport"
    GetOrderStatus := fun _ => Except.ok Status.Pending
    StreamTrades := fun n _ => Except.ok n }

/-- A venue whose first placement attempt fails and whose second one succeeds with id `C2`. -/
def venueC2 : Interface :=
  { PlaceOrder := fun n _ => if n < 1 then Except.error "transport" else Except.ok "C2"
    GetOrderStatus := fun _ => Except.ok Status.Cancelled
    StreamTrades := fun n _ => Except.ok n }

/-- Two fills of the order `B1`. -/
def fillsB1 : List Trade :=
  [{ OrderID := "B1", ExchangeID := "t1", Symbol := "BTCUSDT", Price := 100, Quantity := 0.5,
     Fee := 0, FeeCurrency := "USDT", Side := Side.Buy },
   { OrderID := "B1", ExchangeID := "t2", Symbol := "BTCUSDT", Price := 100, Quantity := 0.5,
     Fee := 0, FeeCurrency := "USDT", Side := Side.Buy }]

/-- The registry of the scenarios. Trade details exist for the order `B1` only. -/
def registry : ExchangeManager :=
  { exchanges := [("binance", venueB1), ("kraken", venueK7), ("coinbase", venueDown),
      ("bitstamp", venueC2)]
    tradeDetails := fun _ id => if id = "B1" then Except.ok fillsB1 else Except.ok [] }

/-- The manager of `cmd/main.go`: built by `NewManager`, slippage protection switched on. -/
def guarded (rc : RiskClient) : Manager :=
  (NewManager registry rc).SetSlippageProtection true

/-- A pending limit order for one `BTCUSDT`. -/
def limitOrder (side : Side) (price : F64) (venue : String) : Order :=
  { ID := "", Symbol := "BTCUSDT", OType := OrderType.Limit, Side := side, Price := price,
    Quantity := 1, Exchange := venue, Status := Status.Pending, RetryCount := 0 }

/-- The order that a successful placement by `limitOrder` leaves in the store: a limit buy at
100, sent to the venue under the id `id`. -/
def sentOrder (id venue : String) : Order :=
  { limitOrder Side.Buy 100 venue with ID := id, Status := Status.SentToExchange }

/-- The reconciler of the scenarios. -/
def reconciler : Reconciler :=
  { exchangeManager := registry }

/-- A store with one order, and no trades, whose reconciliation query is the one of the
specification. -/
def storeOf (o : Order) : TimescaleDB :=
  { orders := [o], trades := [], needsReconciliation := openOrder, calls := 0,
    fails := fun _ => false }

/-- The store `storeOf o` when its call number `k` fails and every other call succeeds. In a
cycle that changes the status of `o` to filled, call 0 is the query of the orders, call 1 the
status write and the calls from 2 on are the inserts of the trades. -/
def flakyStoreOf (k : Nat) (o : Order) : TimescaleDB :=
  { storeOf o with fails := fun n => decide (n = k) }

/-- A store with two orders and no trades: `B1`, sent to `binance`, and `F4`, filled at
`coinbase`. -/
def mixedStore : TimescaleDB :=
  { storeOf (sentOrder "B1" "binance") with
    orders := [sentOrder "B1" "binance",
      { sentOrder "F4" "coinbase" with Status := Status.Filled }] }

/-- A venue that reports the given status for every order. -/
def venueReporting (status : Status) : Interface :=
  { PlaceOrder := fun _ _ => Except.error "transport"
    GetOrderStatus := fun _ => Except.ok status
    StreamTrades := fun _ _ => Except.error "not connected" }

/-- A reconciler whose one venue, `venue`, reports the given status for every order. -/
def reconcilerReporting (status : Status) : Reconciler :=
  { exchangeManager :=
      { exchanges := [("venue", venueReporting status)]
        tradeDetails := fun _ _ => Except.ok [] } }

/-- The aggregator of the scenarios after the first `GetStream` for `BTCUSDT`: `binance` refuses
the stream request, the other three venues hand out the channels 1, 2 and 3. -/
def subscribed : Aggregator :=
  (GetStream (NewAggregator registry) "BTCUSDT").2

/-- The aggregator `subscribed` after the stream of `kraken` terminated and the venue closed its
channel. -/
def terminated : Aggregator :=
  { subscribed with closed := [Chan.inbound 1] }

/-- The fan-in task that `subscribed` started for `kraken`. -/
def krakenTask : FanIn :=
  { exchangeName := "kraken", symbol := "BTCUSDT", inCh := Chan.inbound 1,
    outCh := Chan.made 0 }

/-- A trade of the given symbol, as a venue delivers it: no venue name on it yet. -/
def tradeOf (symbol : String) (price : F64) (timestamp : Int) : TradeEvent :=
  { Symbol := symbol, Exchange := "", Price := price, Quantity := 1, Timestamp := timestamp }

/-! ## Theorems: floating point -/

/-- The product of two finite `float64` values is their exact product, rounded. -/
theorem F64.mul_finite (a b : ℚ) :
    F64.finite a * F64.finite b = roundF64 (a * b) := by
  show roundF64 (mkRat (a.num * b.num) (a.den * b.den)) = roundF64 (a * b)
  rw [Rat.mul_def, Rat.normalize_eq_mkRat]

/-- Of `a <= b` and `b < a` at most one holds. -/
theorem F64.not_lt_of_le (a b : F64) (h : a ≤ b) : ¬ b < a := by
  intro hlt
  change F64.le a b = true at h
  change F64.lt b a = true at hlt
  cases a <;> cases b <;> simp [F64.le, F64.lt] at h hlt
  all_goals first
    | exact absurd hlt (not_lt.mpr h)
    | (rw [h] at hlt; cases hlt)
    | (rcases h with h | h <;> simp_all)

/-- Rounding in the constants and products of the slippage guard at the market price 100:
`1.005` is not a binary64 number, and `100 * 1.005` rounds to the binary64 number next below
100.5, which prints as 100.49999999999999, while `100 * 0.995` rounds to 99.5. -/
theorem F64.guard_products :
    (1.005 : F64) = F64.finite (mkRat 1131529406376837 (2 ^ 50)) ∧
    (100 : F64) * 1.005 = F64.finite (mkRat 7072058789855231 (2 ^ 46)) ∧
    (100.5 : F64) = F64.finite (mkRat 7072058789855232 (2 ^ 46)) ∧
    (100 : F64) * 0.995 = 99.5 := by
  decide

/-! ## Theorems: order pipeline -/

theorem riskOrders_append (a b : List Event) :
    riskOrders (a ++ b) = riskOrders a ++ riskOrders b := by
  induction a with
  | nil => rfl
  | cons e es ih => cases e <;> simp [riskOrders, ih]

theorem placedOrders_append (a b : List Event) :
    placedOrders (a ++ b) = placedOrders a ++ placedOrders b := by
  induction a with
  | nil => rfl
  | cons e es ih => cases e <;> simp [placedOrders, ih]

theorem venueLookups_append (a b : List Event) :
    venueLookups (a ++ b) = venueLookups a ++ venueLookups b := by
  induction a with
  | nil => rfl
  | cons e es ih => cases e <;> simp [venueLookups, ih]

theorem loggedOrders_append (a b : List Event) :
    loggedOrders (a ++ b) = loggedOrders a ++ loggedOrders b := by
  induction a with
  | nil => rfl
  | cons e es ih => cases e <;> simp [loggedOrders, ih]

/-- The events a sleep contributes: none of the observed calls. -/
theorem slept_observed (m : Manager) (i : Nat) :
    riskOrders (if i > 0 then [Event.sleep (m.retryDelay * i)] else []) = [] ∧
    placedOrders (if i > 0 then [Event.sleep (m.retryDelay * i)] else []) = [] ∧
    venueLookups (if i > 0 then [Event.sleep (m.retryDelay * i)] else []) = [] ∧
    loggedOrders (if i > 0 then [Event.sleep (m.retryDelay * i)] else []) = [] := by
  by_cases h : i > 0 <;> simp [h, riskOrders, placedOrders, venueLookups, loggedOrders]

/-- The placement loop never consults the risk gate. -/
theorem placeLoop_riskOrders (m : Manager) (n i : Nat) (o : Order) :
    riskOrders (placeLoop m n i o).2 = [] := by
  induction n generalizing i o with
  | zero => rfl
  | succ n ih =>
    simp only [placeLoop]
    split
    · simp [riskOrders_append, slept_observed, riskOrders]
    · split
      · simp [riskOrders_append, slept_observed, riskOrders, ih]
      · simp [riskOrders_append, slept_observed, riskOrders]

/-- The placement loop keeps the price: of the order it returns and of every order it places. -/
theorem placeLoop_price (m : Manager) (n i : Nat) (o : Order) :
    (placeLoop m n i o).1.Price = o.Price ∧
    ∀ p ∈ placedOrders (placeLoop m n i o).2, p.Price = o.Price := by
  induction n generalizing i o with
  | zero => simp [placeLoop, placedOrders]
  | succ n ih =>
    simp only [placeLoop]
    split
    · simp [placedOrders_append, slept_observed, placedOrders]
    · split
      · have h := ih (i + 1) { o with RetryCount := i, Status := Status.Failed }
        simp only [placedOrders_append, slept_observed, placedOrders, List.nil_append,
          List.cons_append, List.mem_cons]
        refine ⟨h.1, ?_⟩
        intro p hp
        rcases hp with hp | hp
        · rw [hp]
        · exact h.2 p hp
      · simp [placedOrders_append, slept_observed, placedOrders]

/-- The placement loop makes at most as many placements as it has iterations. -/
theorem placeLoop_attempts_le (m : Manager) (n i : Nat) (o : Order) :
    (placedOrders (placeLoop m n i o).2).length ≤ n := by
  induction n generalizing i o with
  | zero => simp [placeLoop, placedOrders]
  | succ n ih =>
    simp only [placeLoop]
    split
    · simp [placedOrders_append, slept_observed, placedOrders]
    · split
      · have h := ih (i + 1) { o with RetryCount := i, Status := Status.Failed }
        simp only [placedOrders_append, slept_observed, placedOrders, List.nil_append,
          List.cons_append, List.length_cons]
        omega
      · simp [placedOrders_append, slept_observed, placedOrders]

/-- What `riskAndPlace` hands on: the risk gate sees exactly the order it was given, and the
price of that order is the price of every placement and of the order returned. -/
theorem riskAndPlace_price (m : Manager) (o : Order) :
    riskOrders (riskAndPlace m o).2 = [o] ∧
    (∀ p ∈ placedOrders (riskAndPlace m o).2, p.Price = o.Price) ∧
    (riskAndPlace m o).1.Price = o.Price := by
  unfold riskAndPlace
  split
  · simp [riskOrders, placedOrders]
  · simp [riskOrders, placedOrders]
  · have h := placeLoop_price m (m.maxRetries + 1) 0 o
    simp only [riskOrders, placedOrders, placeLoop_riskOrders]
    exact ⟨trivial, h.2, h.1⟩

/-- What `processOrder` does once the market price `mp` was obtained for a limit order under
slippage protection. -/
theorem processOrder_guarded (m : Manager) (o : Order) (mp : F64)
    (hs : m.slippageProtection = true) (hl : o.OType = OrderType.Limit)
    (hm : m.marketPrice o.Symbol = Except.ok mp) :
    processOrder m o =
      ((riskAndPlace m (adjustPrice o mp)).1,
        Event.getMarketPrice o.Symbol :: (riskAndPlace m (adjustPrice o mp)).2) := by
  simp [processOrder, hs, hl, Manager.getMarketPrice, hm]

/-- What `processOrder` does when the slippage guard is not consulted. -/
theorem processOrder_unguarded (m : Manager) (o : Order)
    (h : m.slippageProtection = false ∨ o.OType = OrderType.Market) :
    processOrder m o = riskAndPlace m o := by
  rcases h with h | h <;> simp [processOrder, h]

/-- Claim C1, amended. Slippage guard adjustment: for a limit order processed with slippage
protection enabled and market price `mp`, a buy priced strictly below `mp` reaches the risk
gate, every venue placement and the end of the run with price `mp * 1.005`, and a sell priced
strictly above `mp` with price `mp * 0.995`, where the constant and the product are those of
`float64`: rounded to the nearest binary64 number. -/
theorem slippage_guard_adjusts (m : Manager) (o : Order) (mp : F64)
    (hs : m.slippageProtection = true) (hl : o.OType = OrderType.Limit)
    (hm : m.marketPrice o.Symbol = Except.ok mp) :
    (o.Side = Side.Buy → o.Price < mp →
      riskOrders (processOrder m o).2 = [{ o with Price := mp * 1.005 }] ∧
      (∀ p ∈ placedOrders (processOrder m o).2, p.Price = mp * 1.005) ∧
      (processOrder m o).1.Price = mp * 1.005) ∧
    (o.Side = Side.Sell → mp < o.Price →
      riskOrders (processOrder m o).2 = [{ o with Price := mp * 0.995 }] ∧
      (∀ p ∈ placedOrders (processOrder m o).2, p.Price = mp * 0.995) ∧
      (processOrder m o).1.Price = mp * 0.995) := by
  rw [processOrder_guarded m o mp hs hl hm]
  constructor
  · intro hb hlt
    have ha : adjustPrice o mp = { o with Price := mp * 1.005 } := by
      simp [adjustPrice, hb, hlt]
    have h := riskAndPlace_price m (adjustPrice o mp)
    rw [ha] at h ⊢
    simpa [riskOrders, placedOrders] using h
  · intro hsell hgt
    have ha : adjustPrice o mp = { o with Price := mp * 0.995 } := by
      simp [adjustPrice, hsell, hgt]
    have h := riskAndPlace_price m (adjustPrice o mp)
    rw [ha] at h ⊢
    simpa [riskOrders, placedOrders] using h

/-- Claim C2. Slippage adjustment is the identity on orders at least as aggressive as the market:
when slippage protection is disabled, or the order is a market order, or the order is a buy
priced at or above the market price or a sell priced at or below it, `processOrder` leaves the
price unchanged: the risk gate, every venue placement and the end of the run see the submitted
price. -/
theorem slippage_identity (m : Manager) (o : Order)
    (h : m.slippageProtection = false ∨ o.OType = OrderType.Market ∨
      ∃ mp, m.marketPrice o.Symbol = Except.ok mp ∧
        ((o.Side = Side.Buy ∧ mp ≤ o.Price) ∨ (o.Side = Side.Sell ∧ o.Price ≤ mp))) :
    (processOrder m o).1.Price = o.Price ∧
    (∀ p ∈ riskOrders (processOrder m o).2, p.Price = o.Price) ∧
    (∀ p ∈ placedOrders (processOrder m o).2, p.Price = o.Price) := by
  have key : ∀ o' : Order, o'.Price = o.Price →
      (riskAndPlace m o').1.Price = o.Price ∧
      (∀ p ∈ riskOrders (riskAndPlace m o').2, p.Price = o.Price) ∧
      (∀ p ∈ placedOrders (riskAndPlace m o').2, p.Price = o.Price) := by
    intro o' ho'
    have hp := riskAndPlace_price m o'
    refine ⟨hp.2.2.trans ho', ?_, fun p hq => (hp.2.1 p hq).trans ho'⟩
    intro p hq
    rw [hp.1] at hq
    rw [List.mem_singleton.mp hq, ho']
  by_cases hg : m.slippageProtection = true ∧ o.OType = OrderType.Limit
  · rcases h with h | h | ⟨mp, hm, hag⟩
    · rw [hg.1] at h; cases h
    · rw [hg.2] at h; cases h
    · rw [processOrder_guarded m o mp hg.1 hg.2 hm]
      have ha : adjustPrice o mp = o := by
        rcases hag with ⟨hb, hle⟩ | ⟨hsell, hle⟩
        · simp [adjustPrice, hb, F64.not_lt_of_le mp o.Price hle]
        · simp [adjustPrice, hsell, F64.not_lt_of_le o.Price mp hle]
      rw [ha]
      simpa [riskOrders, placedOrders] using key o rfl
  · have hu : m.slippageProtection = false ∨ o.OType = OrderType.Market := by
      by_cases hsp : m.slippageProtection = true
      · right
        cases hot : o.OType with
        | Limit => exact absurd ⟨hsp, hot⟩ hg
        | Market => rfl
      · left
        simpa using hsp
    rw [processOrder_unguarded m o hu]
    exact key o rfl

/-- Claim C3. Risk denial is terminal and gates the venue: when the risk gate, consulted with
the order `o'` during the run, answers not approved, `processOrder` ends with status `Rejected`,
makes no venue lookup and no placement, and logs the order exactly once, with the message
"Rejected by risk controller". -/
theorem risk_denial_terminal (m : Manager) (o o' : Order)
    (hq : o' ∈ riskOrders (processOrder m o).2)
    (hd : m.riskClient.CheckOrder o' = Except.ok false) :
    (processOrder m o).1.Status = Status.Rejected ∧
    venueLookups (processOrder m o).2 = [] ∧
    placedOrders (processOrder m o).2 = [] ∧
    loggedOrders (processOrder m o).2 =
      [((processOrder m o).1, "Rejected by risk controller")] := by
  have key : ∀ x : Order, m.riskClient.CheckOrder x = Except.ok false →
      (riskAndPlace m x).1.Status = Status.Rejected ∧
      venueLookups (riskAndPlace m x).2 = [] ∧
      placedOrders (riskAndPlace m x).2 = [] ∧
      loggedOrders (riskAndPlace m x).2 =
        [((riskAndPlace m x).1, "Rejected by risk controller")] := by
    intro x hx
    simp [riskAndPlace, hx, venueLookups, placedOrders, loggedOrders]
  by_cases hg : m.slippageProtection = true ∧ o.OType = OrderType.Limit
  · cases hm : m.marketPrice o.Symbol with
    | error err =>
      simp [processOrder, hg, Manager.getMarketPrice, hm, riskOrders] at hq
    | ok mp =>
      rw [processOrder_guarded m o mp hg.1 hg.2 hm] at hq ⊢
      simp only [riskOrders, (riskAndPlace_price m (adjustPrice o mp)).1,
        List.mem_singleton] at hq
      rw [hq] at hd
      simpa [venueLookups, placedOrders, loggedOrders] using key _ hd
  · have hu : processOrder m o = riskAndPlace m o := by
      simp [processOrder, hg]
    rw [hu] at hq ⊢
    rw [(riskAndPlace_price m o).1, List.mem_singleton] at hq
    rw [hq] at hd
    exact key o hd

theorem writtenStatuses_append (a b : List Event) :
    writtenStatuses (a ++ b) = writtenStatuses a ++ writtenStatuses b := by
  simp [writtenStatuses, loggedOrders_append]

theorem writtenStatuses_slept (m : Manager) (i : Nat) :
    writtenStatuses (if i > 0 then [Event.sleep (m.retryDelay * i)] else []) = [] := by
  simp [writtenStatuses, slept_observed]

/-- The order handed to the venue at loop index `i`, when the loop runs from index `i` on an
order that is either fresh (`i = 0`) or marked `Failed` by the attempt before. -/
theorem attemptOrder_here (o : Order) (i : Nat) (h : i = 0 ∨ o.Status = Status.Failed) :
    { o with RetryCount := i } = attemptOrder o i := by
  unfold attemptOrder
  rcases h with h | h
  · simp [h]
  · by_cases hi : i = 0 <;> simp [hi, h]

theorem attemptOrder_next (o : Order) (i t : Nat) :
    attemptOrder { o with RetryCount := i, Status := Status.Failed } (i + 1 + t) =
      attemptOrder o (i + 1 + t) := by
  simp [attemptOrder]

/-- Placement loop, retry then success: failures on the first `k` iterations and success with
venue id `v` on the next one. -/
theorem placeLoop_success (m : Manager) (ex : Interface) (v : String) (k : Nat) :
    ∀ (n i : Nat) (o : Order), k < n → (i = 0 ∨ o.Status = Status.Failed) →
      m.exchangeManager.GetExchange o.Exchange = some ex →
      (∀ t, t < k → ∃ e, ex.PlaceOrder (i + t) (attemptOrder o (i + t)) = Except.error e) →
      ex.PlaceOrder (i + k) (attemptOrder o (i + k)) = Except.ok v →
      (placeLoop m n i o).1 =
        { attemptOrder o (i + k) with ID := v, Status := Status.SentToExchange } ∧
      (placedOrders (placeLoop m n i o).2).length = k + 1 := by
  induction k with
  | zero =>
    intro n i o hn hinv hex _ hok
    obtain ⟨n, rfl⟩ : ∃ n', n = n' + 1 := ⟨n - 1, by omega⟩
    have ho1 := attemptOrder_here o i hinv
    simp only [Nat.add_zero] at hok
    simp only [placeLoop, hex, ho1, hok, Nat.add_zero]
    simp [placedOrders_append, slept_observed, placedOrders, attemptOrder]
  | succ k ih =>
    intro n i o hn hinv hex hfail hok
    obtain ⟨n, rfl⟩ : ∃ n', n = n' + 1 := ⟨n - 1, by omega⟩
    have ho1 := attemptOrder_here o i hinv
    obtain ⟨e, he⟩ := hfail 0 (by omega)
    simp only [Nat.add_zero] at he
    have hrec := ih n (i + 1) { o with RetryCount := i, Status := Status.Failed }
      (by omega) (Or.inr rfl) hex
      (by
        intro t ht
        obtain ⟨e', he'⟩ := hfail (t + 1) (by omega)
        refine ⟨e', ?_⟩
        rw [attemptOrder_next]
        rw [show i + 1 + t = i + (t + 1) by omega]
        exact he')
      (by
        rw [attemptOrder_next]
        rw [show i + 1 + k = i + (k + 1) by omega]
        exact hok)
    rw [attemptOrder_next, show i + 1 + k = i + (k + 1) by omega] at hrec
    simp only [placeLoop, hex, ho1, he]
    refine ⟨hrec.1, ?_⟩
    simp only [placedOrders_append, slept_observed, placedOrders, List.nil_append,
      List.cons_append, List.length_cons, hrec.2]

/-- Placement loop, exhausted retries: when every iteration gets an error from the venue, the
loop makes one placement per iteration and leaves the order `Failed`. -/
theorem placeLoop_exhausted (m : Manager) (ex : Interface) :
    ∀ (n i : Nat) (o : Order), 0 < n → (i = 0 ∨ o.Status = Status.Failed) →
      m.exchangeManager.GetExchange o.Exchange = some ex →
      (∀ t, t < n → ∃ e, ex.PlaceOrder (i + t) (attemptOrder o (i + t)) = Except.error e) →
      (placeLoop m n i o).1.Status = Status.Failed ∧
      (placedOrders (placeLoop m n i o).2).length = n := by
  intro n
  induction n with
  | zero => intro i o hn; omega
  | succ n ih =>
    intro i o _ hinv hex hfail
    have ho1 := attemptOrder_here o i hinv
    obtain ⟨e, he⟩ := hfail 0 (by omega)
    simp only [Nat.add_zero] at he
    simp only [placeLoop, hex, ho1, he]
    simp only [placedOrders_append, slept_observed, placedOrders, List.nil_append,
      List.cons_append, List.length_cons]
    cases n with
    | zero => simp [placeLoop, placedOrders]
    | succ n =>
      have hrec := ih (i + 1) { o with RetryCount := i, Status := Status.Failed }
        (by omega) (Or.inr rfl) hex
        (by
          intro t ht
          obtain ⟨e', he'⟩ := hfail (t + 1) (by omega)
          refine ⟨e', ?_⟩
          rw [attemptOrder_next]
          rw [show i + 1 + t = i + (t + 1) by omega]
          exact he')
      exact ⟨hrec.1, by rw [hrec.2]⟩

/-- The run of `processOrder` from the risk gate on, for the order `o'` that the risk gate saw. -/
theorem processOrder_from_gate (m : Manager) (o o' : Order)
    (hq : o' ∈ riskOrders (processOrder m o).2) :
    (processOrder m o).1 = (riskAndPlace m o').1 ∧
    placedOrders (processOrder m o).2 = placedOrders (riskAndPlace m o').2 := by
  by_cases hg : m.slippageProtection = true ∧ o.OType = OrderType.Limit
  · cases hm : m.marketPrice o.Symbol with
    | error err =>
      simp [processOrder, hg, Manager.getMarketPrice, hm, riskOrders] at hq
    | ok mp =>
      rw [processOrder_guarded m o mp hg.1 hg.2 hm] at hq ⊢
      simp only [riskOrders, (riskAndPlace_price m (adjustPrice o mp)).1,
        List.mem_singleton] at hq
      rw [hq]
      simp [placedOrders]
  · have hu : processOrder m o = riskAndPlace m o := by
      simp [processOrder, hg]
    rw [hu] at hq ⊢
    rw [(riskAndPlace_price m o).1, List.mem_singleton] at hq
    rw [hq]
    exact ⟨rfl, rfl⟩

/-- Claim C4. Retry then success: for an order `o'` approved by the risk gate during the run,
on a registered venue `ex`, and `k` with `1 ≤ k ≤ maxRetries + 1`, when `PlaceOrder` returns an
error on attempts `1 .. k - 1` and the venue id `v` on attempt `k`, `processOrder` ends with
status `SentToExchange`, order id `v`, retry count `k - 1`, after exactly `k` placements. -/
theorem retry_then_success (m : Manager) (o o' : Order) (ex : Interface) (k : Nat) (v : String)
    (hq : o' ∈ riskOrders (processOrder m o).2)
    (ha : m.riskClient.CheckOrder o' = Except.ok true)
    (hex : m.exchangeManager.GetExchange o'.Exchange = some ex)
    (hk1 : 1 ≤ k) (hk2 : k ≤ m.maxRetries + 1)
    (hfail : ∀ j, j < k - 1 → ∃ e, ex.PlaceOrder j (attemptOrder o' j) = Except.error e)
    (hok : ex.PlaceOrder (k - 1) (attemptOrder o' (k - 1)) = Except.ok v) :
    (processOrder m o).1.Status = Status.SentToExchange ∧
    (processOrder m o).1.ID = v ∧
    (processOrder m o).1.RetryCount = k - 1 ∧
    (placedOrders (processOrder m o).2).length = k := by
  have hg := processOrder_from_gate m o o' hq
  have hl := placeLoop_success m ex v (k - 1) (m.maxRetries + 1) 0 o' (by omega) (Or.inl rfl) hex
    (by simpa using hfail) (by simpa using hok)
  rw [hg.1, hg.2]
  simp only [riskAndPlace, ha, placedOrders]
  rw [hl.1, hl.2]
  refine ⟨rfl, rfl, ?_, by omega⟩
  simp [attemptOrder]

/-- Claim C5. Bounded retry: whatever the venue answers, `processOrder` makes at most
`maxRetries + 1` placements, which is 4 for a manager built by `NewManager`; and when the order
`o'` was approved by the risk gate and each of the `maxRetries + 1` attempts on the registered
venue returns an error, all `maxRetries + 1` placements are made and the order ends `Failed`. -/
theorem bounded_retry (m : Manager) (o : Order) :
    (placedOrders (processOrder m o).2).length ≤ m.maxRetries + 1 ∧
    (∀ (em : ExchangeManager) (rc : RiskClient) (b : Bool),
      (placedOrders (processOrder ((NewManager em rc).SetSlippageProtection b) o).2).length
        ≤ 4) ∧
    (∀ (o' : Order) (ex : Interface), o' ∈ riskOrders (processOrder m o).2 →
      m.riskClient.CheckOrder o' = Except.ok true →
      m.exchangeManager.GetExchange o'.Exchange = some ex →
      (∀ j, j ≤ m.maxRetries → ∃ e, ex.PlaceOrder j (attemptOrder o' j) = Except.error e) →
      (placedOrders (processOrder m o).2).length = m.maxRetries + 1 ∧
      (processOrder m o).1.Status = Status.Failed) := by
  have bound : ∀ (m : Manager) (x : Order),
      (placedOrders (riskAndPlace m x).2).length ≤ m.maxRetries + 1 := by
    intro m x
    unfold riskAndPlace
    split
    · simp [placedOrders]
    · simp [placedOrders]
    · simpa [placedOrders] using placeLoop_attempts_le m (m.maxRetries + 1) 0 x
  have bound2 : ∀ (m : Manager) (x : Order),
      (placedOrders (processOrder m x).2).length ≤ m.maxRetries + 1 := by
    intro m x
    unfold processOrder
    split
    · split
      · simp [placedOrders]
      · simpa [placedOrders] using bound m _
    · exact bound m x
  refine ⟨bound2 m o, ?_, ?_⟩
  · intro em rc b
    exact bound2 ((NewManager em rc).SetSlippageProtection b) o
  · intro o' ex hq ha hex hfail
    have hg := processOrder_from_gate m o o' hq
    have hl := placeLoop_exhausted m ex (m.maxRetries + 1) 0 o' (by omega) (Or.inl rfl) hex
      (by
        intro t ht
        simpa using hfail t (by omega))
    rw [hg.1, hg.2]
    simp only [riskAndPlace, ha, placedOrders]
    exact ⟨hl.2, hl.1⟩

/-- Statuses written by the placement loop: `Failed` once per failed attempt (or once for a
missing venue), then `SentToExchange` if an attempt succeeds; the order returned carries the
last status written. -/
theorem placeLoop_statuses (m : Manager) (n i : Nat) (o : Order) :
    (∃ j, j ≤ n ∧ (0 < n → 0 < j) ∧
      writtenStatuses (placeLoop m n i o).2 = List.replicate j Status.Failed ∧
      (placeLoop m n i o).1.Status = if j = 0 then o.Status else Status.Failed) ∨
    (∃ j, j < n ∧
      writtenStatuses (placeLoop m n i o).2 =
        List.replicate j Status.Failed ++ [Status.SentToExchange] ∧
      (placeLoop m n i o).1.Status = Status.SentToExchange) := by
  induction n generalizing i o with
  | zero =>
    left
    exact ⟨0, le_refl 0, fun h => absurd h (lt_irrefl 0), rfl, rfl⟩
  | succ n ih =>
    simp only [placeLoop]
    split
    · left
      refine ⟨1, by omega, fun _ => by omega, ?_, rfl⟩
      simp [writtenStatuses, loggedOrders_append, slept_observed, loggedOrders]
    · split
      · rcases ih (i + 1) { o with RetryCount := i, Status := Status.Failed } with
          ⟨j, hj, _, hw, hs⟩ | ⟨j, hj, hw, hs⟩
        · left
          refine ⟨j + 1, by omega, fun _ => by omega, ?_, ?_⟩
          · simp only [writtenStatuses_append, writtenStatuses_slept, hw]
            simp [writtenStatuses, loggedOrders, List.replicate_succ]
          · rw [hs]
            by_cases h0 : j = 0 <;> simp [h0]
        · right
          refine ⟨j + 1, by omega, ?_, hs⟩
          simp only [writtenStatuses_append, writtenStatuses_slept, hw]
          simp [writtenStatuses, loggedOrders, List.replicate_succ]
      · right
        refine ⟨0, by omega, ?_, rfl⟩
        simp [writtenStatuses, loggedOrders_append, slept_observed, loggedOrders]

/-- Shape of the statuses written by `riskAndPlace`, with the status the order ends in. -/
theorem riskAndPlace_statuses (m : Manager) (o : Order) :
    (writtenStatuses (riskAndPlace m o).2 = [Status.Rejected] ∧
      (riskAndPlace m o).1.Status = Status.Rejected) ∨
    (∃ j, 1 ≤ j ∧ j ≤ m.maxRetries + 1 ∧
      writtenStatuses (riskAndPlace m o).2 = List.replicate j Status.Failed ∧
      (riskAndPlace m o).1.Status = Status.Failed) ∨
    (∃ j, j ≤ m.maxRetries ∧
      writtenStatuses (riskAndPlace m o).2 =
        List.replicate j Status.Failed ++ [Status.SentToExchange] ∧
      (riskAndPlace m o).1.Status = Status.SentToExchange) := by
  unfold riskAndPlace
  split
  · right; left
    exact ⟨1, le_refl 1, by omega, by simp [writtenStatuses, loggedOrders], rfl⟩
  · left
    exact ⟨by simp [writtenStatuses, loggedOrders], rfl⟩
  · right
    rcases placeLoop_statuses m (m.maxRetries + 1) 0 o with ⟨j, hj, hpos, hw, hs⟩ | ⟨j, hj, hw, hs⟩
    · left
      have hj1 : 0 < j := hpos (by omega)
      refine ⟨j, hj1, hj, ?_, ?_⟩
      · simpa [writtenStatuses, loggedOrders] using hw
      · simpa [Nat.pos_iff_ne_zero.mp hj1] using hs
    · right
      refine ⟨j, by omega, ?_, hs⟩
      simpa [writtenStatuses, loggedOrders] using hw

/-- Shape of the statuses written by `processOrder`, with the status the order ends in. -/
theorem processOrder_statuses (m : Manager) (o : Order) :
    (writtenStatuses (processOrder m o).2 = [Status.Rejected] ∧
      (processOrder m o).1.Status = Status.Rejected) ∨
    (∃ j, 1 ≤ j ∧ j ≤ m.maxRetries + 1 ∧
      writtenStatuses (processOrder m o).2 = List.replicate j Status.Failed ∧
      (processOrder m o).1.Status = Status.Failed) ∨
    (∃ j, j ≤ m.maxRetries ∧
      writtenStatuses (processOrder m o).2 =
        List.replicate j Status.Failed ++ [Status.SentToExchange] ∧
      (processOrder m o).1.Status = Status.SentToExchange) := by
  unfold processOrder
  split
  · split
    · right; left
      exact ⟨1, le_refl 1, by omega, by simp [writtenStatuses, loggedOrders], rfl⟩
    · simpa [writtenStatuses, loggedOrders] using riskAndPlace_statuses m _
  · exact riskAndPlace_statuses m o

theorem chain_retry_failed (j : Nat) :
    List.Chain RetryStep Status.Failed (List.replicate j Status.Failed) ∧
    List.Chain RetryStep Status.Failed
      (List.replicate j Status.Failed ++ [Status.SentToExchange]) := by
  induction j with
  | zero =>
    refine ⟨List.Chain.nil, ?_⟩
    exact List.Chain.cons (Or.inr ⟨rfl, Or.inr rfl⟩) List.Chain.nil
  | succ j ih =>
    simp only [List.replicate_succ, List.cons_append]
    exact ⟨List.Chain.cons (Or.inr ⟨rfl, Or.inl rfl⟩) ih.1,
      List.Chain.cons (Or.inr ⟨rfl, Or.inl rfl⟩) ih.2⟩

theorem getLast_replicate_failed (j : Nat) (s : Status) :
    (List.replicate (j + 1) s).getLast? = some s := by
  induction j with
  | zero => rfl
  | succ j ih =>
    rw [List.replicate_succ, List.replicate_succ, List.getLast?_cons_cons,
      ← List.replicate_succ]
    exact ih

/-- Counterexample to claim C1 as stated (its witness for the buy side): with the market at 100,
a limit buy at 99 reaches the risk gate, the venue and the end of the run with the price
`7072058789855231 / 2 ^ 46`, the `float64` product `100 * 1.005`, which is below 100.5 by
`2 ^ (-46)` and is not 100.5. -/
theorem slippage_buy_witness_refuted :
    (riskOrders (processOrder (guarded approveAll) (limitOrder Side.Buy 99 "binance")).2).map
      (fun o => o.Price) = [F64.finite (mkRat 7072058789855231 (2 ^ 46))] ∧
    (placedOrders (processOrder (guarded approveAll) (limitOrder Side.Buy 99 "binance")).2).map
      (fun o => o.Price) = [F64.finite (mkRat 7072058789855231 (2 ^ 46))] ∧
    (processOrder (guarded approveAll) (limitOrder Side.Buy 99 "binance")).1.Price =
      F64.finite (mkRat 7072058789855231 (2 ^ 46)) ∧
    (processOrder (guarded approveAll) (limitOrder Side.Buy 99 "binance")).1.Price ≠ 100.5 ∧
    mkRat 7072058789855231 (2 ^ 46) + 1 / 2 ^ 46 = (100.5 : ℚ) := by
  refine ⟨by decide, by decide, by decide, by decide, ?_⟩
  rw [Rat.mkRat_eq_div]
  norm_num

/-- Witness of the amended claim C1 (scenarios 2 and 3): with the market at 100, a limit buy at
99 ends at the `float64` product `100 * 1.005`, which is `7072058789855231 / 2 ^ 46`, and a
limit sell at 101 ends at `100 * 0.995`, which is 99.5. -/
theorem slippage_guard_adjusts_witness :
    (processOrder (guarded approveAll) (limitOrder Side.Buy 99 "binance")).1.Price =
      F64.finite (mkRat 7072058789855231 (2 ^ 46)) ∧
    (processOrder (guarded approveAll) (limitOrder Side.Sell 101 "binance")).1.Price = 99.5 := by
  have hb := (slippage_guard_adjusts (guarded approveAll) (limitOrder Side.Buy 99 "binance") 100
    rfl rfl rfl).1 rfl (by decide)
  have hs := (slippage_guard_adjusts (guarded approveAll) (limitOrder Side.Sell 101 "binance")
    100 rfl rfl rfl).2 rfl (by decide)
  exact ⟨hb.2.2.trans F64.guard_products.2.1, hs.2.2.trans F64.guard_products.2.2.2⟩

/-- Witness of claim C2 (scenario 1): with the market at 100, a limit buy at 100 keeps its
price. -/
theorem slippage_identity_witness :
    (processOrder (guarded approveAll) (limitOrder Side.Buy 100 "binance")).1.Price = 100 :=
  (slippage_identity (guarded approveAll) (limitOrder Side.Buy 100 "binance")
    (Or.inr (Or.inr ⟨100, rfl, Or.inl ⟨rfl, by decide⟩⟩))).1

/-- Witness of claim C3 (scenario 4): a limit buy at 100 denied by the risk authority. -/
theorem risk_denial_terminal_witness :
    (processOrder (guarded denyAll) (limitOrder Side.Buy 100 "binance")).1.Status =
      Status.Rejected ∧
    placedOrders (processOrder (guarded denyAll) (limitOrder Side.Buy 100 "binance")).2 = [] :=
  have h := risk_denial_terminal (guarded denyAll) (limitOrder Side.Buy 100 "binance")
    (limitOrder Side.Buy 100 "binance") (by decide) rfl
  ⟨h.1, h.2.2.1⟩

/-- Witness of claim C4 (scenario 5): `maxRetries = 3`, failures on attempts 1 and 2, success on
attempt 3 with id `K7`. -/
theorem retry_then_success_witness :
    (guarded approveAll).maxRetries = 3 ∧
    (processOrder (guarded approveAll) (limitOrder Side.Buy 100 "kraken")).1.Status =
      Status.SentToExchange ∧
    (processOrder (guarded approveAll) (limitOrder Side.Buy 100 "kraken")).1.ID = "K7" ∧
    (processOrder (guarded approveAll) (limitOrder Side.Buy 100 "kraken")).1.RetryCount = 2 ∧
    (placedOrders
      (processOrder (guarded approveAll) (limitOrder Side.Buy 100 "kraken")).2).length = 3 :=
  ⟨rfl, retry_then_success (guarded approveAll) (limitOrder Side.Buy 100 "kraken")
    (limitOrder Side.Buy 100 "kraken") venueK7 3 "K7" (by decide) rfl rfl (by decide)
    (by decide)
    (fun j hj => ⟨"transport", if_pos (by omega)⟩)
    rfl⟩

/-- Witness of claim C5: on a venue that fails every placement the default manager makes 4
attempts and the order ends `Failed`. -/
theorem bounded_retry_witness :
    (placedOrders
      (processOrder (guarded approveAll) (limitOrder Side.Buy 100 "coinbase")).2).length = 4 ∧
    (processOrder (guarded approveAll) (limitOrder Side.Buy 100 "coinbase")).1.Status =
      Status.Failed :=
  (bounded_retry (guarded approveAll) (limitOrder Side.Buy 100 "coinbase")).2.2
    (limitOrder Side.Buy 100 "coinbase") venueDown (by decide) rfl rfl
    (fun _ _ => ⟨"transport", rfl⟩)

/-- Counterexample to claim C6 as stated: a pending limit buy whose first placement attempt
fails and whose second one succeeds is written `Failed` and then `SentToExchange`, so the
pipeline leaves `Failed` by a transition that is not pipeline-owned. -/
theorem pipeline_progress_refuted :
    (limitOrder Side.Buy 100 "bitstamp").Status = Status.Pending ∧
    writtenStatuses (processOrder (guarded approveAll) (limitOrder Side.Buy 100 "bitstamp")).2 =
      [Status.Failed, Status.SentToExchange] ∧
    ¬ PipelineProgress (limitOrder Side.Buy 100 "bitstamp").Status
      (writtenStatuses
        (processOrder (guarded approveAll) (limitOrder Side.Buy 100 "bitstamp")).2) := by
  have hw : writtenStatuses
      (processOrder (guarded approveAll) (limitOrder Side.Buy 100 "bitstamp")).2 =
      [Status.Failed, Status.SentToExchange] := by decide
  refine ⟨rfl, hw, ?_⟩
  rw [hw]
  intro h
  simp [PipelineProgress, PipelineStep, limitOrder] at h

/-- Claim C6, amended. For a pending order, the statuses that `processOrder` writes are
`Rejected` alone, or `Failed` between one and `maxRetries + 1` times, or `Failed` at most
`maxRetries` times followed by `SentToExchange`; so they progress along the pipeline-owned
transitions and, between placement attempts, along `Failed` to `Failed` and `Failed` to
`SentToExchange`; no status is written after `Rejected` or `SentToExchange`, and the order ends
in the last status written. -/
theorem pipeline_status_sequence (m : Manager) (o : Order) (ho : o.Status = Status.Pending) :
    List.Chain RetryStep o.Status (writtenStatuses (processOrder m o).2) ∧
    (writtenStatuses (processOrder m o).2).getLast? = some (processOrder m o).1.Status ∧
    (writtenStatuses (processOrder m o).2 = [Status.Rejected] ∨
      (∃ j, 1 ≤ j ∧ j ≤ m.maxRetries + 1 ∧
        writtenStatuses (processOrder m o).2 = List.replicate j Status.Failed) ∨
      (∃ j, j ≤ m.maxRetries ∧
        writtenStatuses (processOrder m o).2 =
          List.replicate j Status.Failed ++ [Status.SentToExchange])) := by
  rw [ho]
  rcases processOrder_statuses m o with ⟨hw, hs⟩ | ⟨j, hj1, hj2, hw, hs⟩ | ⟨j, hj, hw, hs⟩
  · rw [hw, hs]
    refine ⟨?_, rfl, Or.inl rfl⟩
    exact List.Chain.cons (Or.inl ⟨rfl, Or.inl rfl⟩) List.Chain.nil
  · rw [hw, hs]
    obtain ⟨j, rfl⟩ : ∃ j', j = j' + 1 := ⟨j - 1, by omega⟩
    refine ⟨?_, getLast_replicate_failed j Status.Failed, Or.inr (Or.inl ⟨j + 1, hj1, hj2, rfl⟩)⟩
    rw [List.replicate_succ]
    exact List.Chain.cons (Or.inl ⟨rfl, Or.inr (Or.inl rfl)⟩) (chain_retry_failed j).1
  · rw [hw, hs]
    refine ⟨?_, by simp, Or.inr (Or.inr ⟨j, hj, rfl⟩)⟩
    cases j with
    | zero => exact List.Chain.cons (Or.inl ⟨rfl, Or.inr (Or.inr rfl)⟩) List.Chain.nil
    | succ j =>
      rw [List.replicate_succ, List.cons_append]
      exact List.Chain.cons (Or.inl ⟨rfl, Or.inr (Or.inl rfl)⟩) (chain_retry_failed j).2

/-- Witness of the amended claim C6: the run with two failed attempts and a successful third
one writes `Failed`, `Failed`, `SentToExchange`. -/
theorem pipeline_status_sequence_witness :
    List.Chain RetryStep Status.Pending [Status.Failed, Status.Failed, Status.SentToExchange] ∧
    (processOrder (guarded approveAll) (limitOrder Side.Buy 100 "kraken")).1.Status =
      Status.SentToExchange := by
  have h := pipeline_status_sequence (guarded approveAll) (limitOrder Side.Buy 100 "kraken") rfl
  have hw : writtenStatuses
      (processOrder (guarded approveAll) (limitOrder Side.Buy 100 "kraken")).2 =
      [Status.Failed, Status.Failed, Status.SentToExchange] := by decide
  rw [hw] at h
  exact ⟨h.1, (Option.some.inj h.2.1).symm⟩

/-! ## Theorems: reconciliation -/

theorem statusUpdates_append (a b : List RecEvent) :
    statusUpdates (a ++ b) = statusUpdates a ++ statusUpdates b := by
  induction a with
  | nil => rfl
  | cons e es ih => cases e <;> simp [statusUpdates, ih]

/-- The loop over the trades writes no status. -/
theorem logTrades_updates (ts : List Trade) :
    ∀ db : TimescaleDB, statusUpdates (logTrades db ts).2 = [] := by
  induction ts with
  | nil => intro db; rfl
  | cons t ts ih =>
    intro db
    simp only [logTrades]
    split <;> simp [statusUpdates, ih]

/-- The handler of filled orders writes no status. -/
theorem handleFilledOrder_updates (r : Reconciler) (db : TimescaleDB) (o : Order) :
    statusUpdates (handleFilledOrder r db o).2 = [] := by
  unfold handleFilledOrder
  split
  · rfl
  · simp [statusUpdates, logTrades_updates]

/-- The report of a failed status write is no status write. -/
theorem statusUpdates_report (w : Except String Unit) (id : String) (st : Status) :
    statusUpdates (match w with
      | Except.ok _ => []
      | Except.error _ => [RecEvent.updateFailed id st]) = [] := by
  cases w <;> rfl

/-- The order that the loop body leaves: the venue's status when the venue answered, the order
as it was otherwise. -/
theorem reconcileOrder_order (r : Reconciler) (db : TimescaleDB) (o : Order) :
    (∀ ex s, r.exchangeManager.GetExchange o.Exchange = some ex →
      ex.GetOrderStatus o.ID = Except.ok s →
      (reconcileOrder r db o).1 = { o with Status := s }) ∧
    ((r.exchangeManager.GetExchange o.Exchange = none ∨
      ∃ ex e, r.exchangeManager.GetExchange o.Exchange = some ex ∧
        ex.GetOrderStatus o.ID = Except.error e) →
      (reconcileOrder r db o).1 = o) := by
  constructor
  · intro ex s hex hs
    by_cases hne : o.Status = s
    · simp [reconcileOrder, hex, hs, hne]
      cases o
      simp_all
    · simp only [reconcileOrder, hex, hs, ne_eq, hne, not_false_eq_true, if_true]
      split <;> rfl
  · rintro (hnone | ⟨ex, e, hex, he⟩)
    · simp [reconcileOrder, hnone]
    · simp [reconcileOrder, hex, he]

/-- The status writes of the loop body are the one the specification asks for. -/
theorem reconcileOrder_updates (r : Reconciler) (db : TimescaleDB) (o : Order) :
    statusUpdates (reconcileOrder r db o).2.2 = (venueDisagrees r o).toList := by
  unfold reconcileOrder venueDisagrees
  split
  · rfl
  · split
    · rfl
    · split
      · split
        · simp [statusUpdates_append, statusUpdates, handleFilledOrder_updates,
            statusUpdates_report]
        · simp [statusUpdates_append, statusUpdates, handleCancelledOrder,
            statusUpdates_report]
        · simp [statusUpdates_append, statusUpdates, statusUpdates_report]
      · rfl

/-- Every order handed to a cycle is handled by the loop body, whatever happened to the orders
before it. -/
theorem reconcileOrders_each (r : Reconciler) (db : TimescaleDB) (os : List Order) :
    List.Forall₂
      (fun o o' =>
        (∀ ex s, r.exchangeManager.GetExchange o.Exchange = some ex →
          ex.GetOrderStatus o.ID = Except.ok s → o' = { o with Status := s }) ∧
        ((r.exchangeManager.GetExchange o.Exchange = none ∨
          ∃ ex e, r.exchangeManager.GetExchange o.Exchange = some ex ∧
            ex.GetOrderStatus o.ID = Except.error e) → o' = o))
      os (reconcileOrders r db os).orders := by
  induction os generalizing db with
  | nil => exact List.Forall₂.nil
  | cons o os ih =>
    simp only [reconcileOrders]
    exact List.Forall₂.cons (reconcileOrder_order r db o) (ih (reconcileOrder r db o).2.1)

/-- The status writes of a cycle are, in order, the ones the specification asks for. -/
theorem reconcileOrders_updates (r : Reconciler) (db : TimescaleDB) (os : List Order) :
    statusUpdates (reconcileOrders r db os).events = os.filterMap (venueDisagrees r) := by
  induction os generalizing db with
  | nil => rfl
  | cons o os ih =>
    simp only [reconcileOrders, statusUpdates_append, reconcileOrder_updates,
      ih (reconcileOrder r db o).2.1]
    cases hv : venueDisagrees r o <;> simp [List.filterMap_cons, hv]

/-- Claim C7. Reconciliation is authoritative: for every list of orders handed to a cycle, each
order whose venue is registered and whose status query succeeded leaves the cycle with the
status the venue reported (and is otherwise unchanged); each order whose venue is not registered
or whose status query failed leaves it unchanged, and the orders after it are still handled;
and `UpdateOrderStatus` is called, in order, with the venue's status for exactly the orders
whose venue answered with a status different from the stored one. -/
theorem reconcile_venue_wins (r : Reconciler) (db : TimescaleDB) (os : List Order) :
    List.Forall₂
      (fun o o' =>
        (∀ ex s, r.exchangeManager.GetExchange o.Exchange = some ex →
          ex.GetOrderStatus o.ID = Except.ok s → o' = { o with Status := s }) ∧
        ((r.exchangeManager.GetExchange o.Exchange = none ∨
          ∃ ex e, r.exchangeManager.GetExchange o.Exchange = some ex ∧
            ex.GetOrderStatus o.ID = Except.error e) → o' = o))
      os (reconcileOrders r db os).orders ∧
    statusUpdates (reconcileOrders r db os).events = os.filterMap (venueDisagrees r) :=
  ⟨reconcileOrders_each r db os, reconcileOrders_updates r db os⟩

/-- Witness of claim C7 (scenario 6, status part): the order `B1`, stored as sent to `binance`,
which reports it filled, leaves the cycle filled, after one status write. -/
theorem reconcile_venue_wins_witness :
    (reconcileOrders reconciler (storeOf (sentOrder "B1" "binance"))
      [sentOrder "B1" "binance"]).orders =
      [{ sentOrder "B1" "binance" with Status := Status.Filled }] ∧
    statusUpdates (reconcileOrders reconciler (storeOf (sentOrder "B1" "binance"))
      [sentOrder "B1" "binance"]).events = [("B1", Status.Filled)] := by
  have h := reconcile_venue_wins reconciler (storeOf (sentOrder "B1" "binance"))
    [sentOrder "B1" "binance"]
  refine ⟨?_, h.2.trans (by decide)⟩
  have h1 := h.1
  generalize (reconcileOrders reconciler (storeOf (sentOrder "B1" "binance"))
    [sentOrder "B1" "binance"]).orders = out at h1
  cases h1 with
  | cons hhead htail =>
    cases htail
    rw [hhead.1 venueB1 Status.Filled rfl rfl]

/-! ### The store across cycles -/

/-- A status write under one id leaves the rows stored under another id as they are. -/
theorem filter_update_ne (rows : List Order) (id id' : String) (st : Status) (h : id' ≠ id) :
    (rows.map (fun o => if o.ID = id' then { o with Status := st } else o)).filter
      (fun o => decide (o.ID = id)) = rows.filter (fun o => decide (o.ID = id)) := by
  induction rows with
  | nil => rfl
  | cons o rows ih =>
    by_cases h1 : o.ID = id'
    · have h2 : ¬ o.ID = id := fun h3 => h (h1.symm.trans h3)
      simp [List.filter_cons, h1, h, h2, ih]
    · have h3 : ¬ id = id' := fun e => h e.symm
      by_cases h2 : o.ID = id <;> simp [List.filter_cons, h1, h2, h3, ih]

/-- A status write under an id sets the status of the rows stored under that id. -/
theorem filter_update_eq (rows : List Order) (id : String) (st : Status) :
    (rows.map (fun o => if o.ID = id then { o with Status := st } else o)).filter
      (fun o => decide (o.ID = id)) =
      (rows.filter (fun o => decide (o.ID = id))).map (fun o => { o with Status := st }) := by
  induction rows with
  | nil => rfl
  | cons o rows ih =>
    by_cases h1 : o.ID = id <;> simp [List.filter_cons, h1, ih]

/-- Trades of one order are no trade rows of another order. -/
theorem filter_trades_other (ts : List Trade) (id id' : String) (h : id' ≠ id)
    (hts : ∀ t ∈ ts, t.OrderID = id') :
    ts.filter (fun t => decide (t.OrderID = id)) = [] := by
  rw [List.filter_eq_nil_iff]
  intro t ht
  simp [hts t ht, h]

theorem filter_trades_own (ts : List Trade) (id : String) (hts : ∀ t ∈ ts, t.OrderID = id) :
    ts.filter (fun t => decide (t.OrderID = id)) = ts := by
  rw [List.filter_eq_self]
  intro t ht
  simp [hts t ht]

/-- What a status write does to the store: it touches the rows of `orders` only, and only when
it succeeds. -/
theorem UpdateOrderStatus_store (db : TimescaleDB) (id : String) (st : Status) :
    (db.UpdateOrderStatus id st).2.trades = db.trades ∧
    (db.UpdateOrderStatus id st).2.needsReconciliation = db.needsReconciliation ∧
    (db.UpdateOrderStatus id st).2.fails = db.fails ∧
    ((db.UpdateOrderStatus id st).2.orders = db.orders ∨
      (db.UpdateOrderStatus id st).2.orders =
        db.orders.map (fun o => if o.ID = id then { o with Status := st } else o)) ∧
    ((db.UpdateOrderStatus id st).1 = Except.ok () →
      (db.UpdateOrderStatus id st).2.orders =
        db.orders.map (fun o => if o.ID = id then { o with Status := st } else o)) := by
  unfold TimescaleDB.UpdateOrderStatus
  split
  · refine ⟨rfl, rfl, rfl, Or.inl rfl, ?_⟩
    intro h
    cases h
  · exact ⟨rfl, rfl, rfl, Or.inr rfl, fun _ => rfl⟩

/-- What the loop over the trades does to the store: it appends some of the trades, in order,
to the rows of `trades`, and all of them when no insert is reported as failed. -/
theorem logTrades_store (ts : List Trade) :
    ∀ db : TimescaleDB,
      (logTrades db ts).1.orders = db.orders ∧
      (logTrades db ts).1.needsReconciliation = db.needsReconciliation ∧
      (logTrades db ts).1.fails = db.fails ∧
      (∃ ins, ins.Sublist ts ∧ (logTrades db ts).1.trades = db.trades ++ ins) ∧
      ((∀ t ∈ ts, RecEvent.logTradeFailed t ∉ (logTrades db ts).2) →
        (logTrades db ts).1.trades = db.trades ++ ts) := by
  induction ts with
  | nil =>
    intro db
    exact ⟨rfl, rfl, rfl, ⟨[], List.Sublist.refl _, by simp [logTrades]⟩,
      fun _ => by simp [logTrades]⟩
  | cons t ts ih =>
    intro db
    by_cases hf : db.fails db.calls = true
    · have hw : db.LogTrade t =
          (Except.error "exec failed", { db with calls := db.calls + 1 }) := by
        simp [TimescaleDB.LogTrade, hf]
      obtain ⟨h1, h2, h3, ⟨ins, hsub, h4⟩, _⟩ := ih { db with calls := db.calls + 1 }
      simp only [logTrades, hw]
      refine ⟨h1, h2, h3, ⟨ins, List.Sublist.cons _ hsub, h4⟩, ?_⟩
      intro hno
      exact absurd (List.mem_cons_of_mem _ (List.mem_cons_self _ _))
        (hno t (List.mem_cons_self _ _))
    · have hw : db.LogTrade t =
          (Except.ok (), { db with trades := db.trades ++ [t], calls := db.calls + 1 }) := by
        simp [TimescaleDB.LogTrade, hf]
      obtain ⟨h1, h2, h3, ⟨ins, hsub, h4⟩, h5⟩ :=
        ih { db with trades := db.trades ++ [t], calls := db.calls + 1 }
      simp only [logTrades, hw]
      refine ⟨h1, h2, h3, ⟨t :: ins, List.Sublist.cons₂ _ hsub, ?_⟩, ?_⟩
      · rw [h4]
        simp
      · intro hno
        rw [h5 (fun u hu hmem => hno u (List.mem_cons_of_mem _ hu)
          (List.mem_cons_of_mem _ hmem))]
        simp

/-- What the handler of filled orders does to the store: it appends trade details of the order
to the rows of `trades`. -/
theorem handleFilledOrder_store (r : Reconciler) (db : TimescaleDB) (o : Order) :
    (handleFilledOrder r db o).1.orders = db.orders ∧
    (handleFilledOrder r db o).1.needsReconciliation = db.needsReconciliation ∧
    (handleFilledOrder r db o).1.fails = db.fails ∧
    ∃ ins, (handleFilledOrder r db o).1.trades = db.trades ++ ins ∧
      ∀ t ∈ ins, ∃ ts, r.exchangeManager.GetTradeDetails o.Exchange o.ID = Except.ok ts ∧
        t ∈ ts := by
  unfold handleFilledOrder
  cases hts : r.exchangeManager.GetTradeDetails o.Exchange o.ID with
  | error e =>
    exact ⟨rfl, rfl, rfl, [], by simp, fun t ht => by cases ht⟩
  | ok ts =>
    obtain ⟨h1, h2, h3, ⟨ins, hsub, h4⟩, _⟩ := logTrades_store ts db
    exact ⟨h1, h2, h3, ins, h4, fun t ht => ⟨ts, rfl, hsub.subset ht⟩⟩

/-- What the loop body does to the store: at most one status write under the id of the order,
and trade details of the order appended to the rows of `trades`. -/
theorem reconcileOrder_store (r : Reconciler) (db : TimescaleDB) (o : Order) :
    (reconcileOrder r db o).2.1.needsReconciliation = db.needsReconciliation ∧
    (reconcileOrder r db o).2.1.fails = db.fails ∧
    ((reconcileOrder r db o).2.1.orders = db.orders ∨
      ∃ st, (reconcileOrder r db o).2.1.orders =
        db.orders.map (fun x => if x.ID = o.ID then { x with Status := st } else x)) ∧
    ∃ ins, (reconcileOrder r db o).2.1.trades = db.trades ++ ins ∧
      ∀ t ∈ ins, ∃ ts, r.exchangeManager.GetTradeDetails o.Exchange o.ID = Except.ok ts ∧
        t ∈ ts := by
  have none_ : ∀ d : TimescaleDB, d = db →
      d.needsReconciliation = db.needsReconciliation ∧ d.fails = db.fails ∧
      (d.orders = db.orders ∨ ∃ st, d.orders =
        db.orders.map (fun x => if x.ID = o.ID then { x with Status := st } else x)) ∧
      ∃ ins, d.trades = db.trades ++ ins ∧
        ∀ t ∈ ins, ∃ ts, r.exchangeManager.GetTradeDetails o.Exchange o.ID = Except.ok ts ∧
          t ∈ ts := by
    intro d hd
    rw [hd]
    exact ⟨rfl, rfl, Or.inl rfl, [], by simp, fun t ht => by cases ht⟩
  unfold reconcileOrder
  split
  · exact none_ _ rfl
  · split
    · exact none_ _ rfl
    · rename_i status _
      split
      · obtain ⟨u1, u2, u3, u4, _⟩ := UpdateOrderStatus_store db o.ID status
        have hord : (db.UpdateOrderStatus o.ID status).2.orders = db.orders ∨
            ∃ st, (db.UpdateOrderStatus o.ID status).2.orders =
              db.orders.map (fun x => if x.ID = o.ID then { x with Status := st } else x) := by
          rcases u4 with h | h
          · exact Or.inl h
          · exact Or.inr ⟨status, h⟩
        split
        · obtain ⟨h1, h2, h3, ins, h4, h5⟩ := handleFilledOrder_store r
            (db.UpdateOrderStatus o.ID Status.Filled).2 { o with Status := Status.Filled }
          refine ⟨h2.trans u2, h3.trans u3, ?_, ins, ?_, h5⟩
          · simp only [h1]
            exact hord
          · simp only [h4, u1]
        · exact ⟨u2, u3, hord, [], by simp [handleCancelledOrder, u1],
            fun t ht => by cases ht⟩
        · exact ⟨u2, u3, hord, [], by simp [u1], fun t ht => by cases ht⟩
      · exact none_ _ rfl

/-- The loop body for an order stored under another id: the order rows under `id` and the
settings of the store stay as they are. -/
theorem reconcileOrder_rows_other (r : Reconciler) (db : TimescaleDB) (o : Order) (id : String)
    (hne : o.ID ≠ id) :
    (reconcileOrder r db o).2.1.orders.filter (fun x => decide (x.ID = id)) =
      db.orders.filter (fun x => decide (x.ID = id)) ∧
    (reconcileOrder r db o).2.1.needsReconciliation = db.needsReconciliation ∧
    (reconcileOrder r db o).2.1.fails = db.fails := by
  obtain ⟨h1, h2, h3, _⟩ := reconcileOrder_store r db o
  refine ⟨?_, h1, h2⟩
  rcases h3 with h | ⟨st, h⟩
  · rw [h]
  · rw [h]
    exact filter_update_ne _ _ _ _ hne

/-- The loop body for an order stored under another id: the trade rows under `id` stay as they
are. -/
theorem reconcileOrder_trades_other (r : Reconciler) (db : TimescaleDB) (o : Order)
    (id : String) (hbel : TradesBelong r.exchangeManager) (hne : o.ID ≠ id) :
    (reconcileOrder r db o).2.1.tradeRows id = db.tradeRows id := by
  obtain ⟨_, _, _, ins, h4, h5⟩ := reconcileOrder_store r db o
  unfold TimescaleDB.tradeRows
  rw [h4, List.filter_append]
  rw [filter_trades_other ins id o.ID hne
    (fun t ht => by
      obtain ⟨ts, hts, hmem⟩ := h5 t ht
      exact hbel _ _ ts hts t hmem), List.append_nil]

/-- The loop body for an order that the venue reports filled and that is not yet stored as
filled, when no write to the store is reported as failed: its rows are set to `Filled` and its
trade details are appended to its trade rows. -/
theorem reconcileOrder_fill (r : Reconciler) (db : TimescaleDB) (o : Order) (ex : Interface)
    (ts : List Trade) (hbel : TradesBelong r.exchangeManager)
    (hex : r.exchangeManager.GetExchange o.Exchange = some ex)
    (hfilled : ex.GetOrderStatus o.ID = Except.ok Status.Filled)
    (hts : r.exchangeManager.GetTradeDetails o.Exchange o.ID = Except.ok ts)
    (hst : o.Status ≠ Status.Filled)
    (hnoU : RecEvent.updateFailed o.ID Status.Filled ∉ (reconcileOrder r db o).2.2)
    (hnoL : ∀ t ∈ ts, RecEvent.logTradeFailed t ∉ (reconcileOrder r db o).2.2) :
    (reconcileOrder r db o).2.1.tradeRows o.ID = db.tradeRows o.ID ++ ts ∧
    (reconcileOrder r db o).2.1.orders.filter (fun x => decide (x.ID = o.ID)) =
      (db.orders.filter (fun x => decide (x.ID = o.ID))).map
        (fun x => { x with Status := Status.Filled }) := by
  have hshape : reconcileOrder r db o =
      ({ o with Status := Status.Filled },
        (logTrades (db.UpdateOrderStatus o.ID Status.Filled).2 ts).1,
        ([RecEvent.getExchange o.Exchange, RecEvent.getOrderStatus o.Exchange o.ID,
          RecEvent.updateOrderStatus o.ID Status.Filled] ++
          (match (db.UpdateOrderStatus o.ID Status.Filled).1 with
            | Except.ok _ => []
            | Except.error _ => [RecEvent.updateFailed o.ID Status.Filled])) ++
        (RecEvent.getTradeDetails o.Exchange o.ID ::
          (logTrades (db.UpdateOrderStatus o.ID Status.Filled).2 ts).2)) := by
    simp only [reconcileOrder, hex, hfilled, ne_eq, hst, not_false_eq_true, if_true,
      handleFilledOrder, hts]
  rw [hshape] at hnoU hnoL
  rw [hshape]
  have hok : (db.UpdateOrderStatus o.ID Status.Filled).1 = Except.ok () := by
    by_cases hf : db.fails db.calls = true
    · exfalso
      apply hnoU
      simp [TimescaleDB.UpdateOrderStatus, hf]
    · simp [TimescaleDB.UpdateOrderStatus, hf]
  obtain ⟨u1, _, _, _, u5⟩ := UpdateOrderStatus_store db o.ID Status.Filled
  obtain ⟨l1, _, _, _, l5⟩ := logTrades_store ts (db.UpdateOrderStatus o.ID Status.Filled).2
  have hall := l5 (fun t ht hmem => hnoL t ht
    (List.mem_append_right _ (List.mem_cons_of_mem _ hmem)))
  refine ⟨?_, ?_⟩
  · simp only [TimescaleDB.tradeRows, hall, u1, List.filter_append]
    rw [filter_trades_own ts o.ID (hbel _ _ ts hts)]
  · simp only [l1, u5 hok]
    exact filter_update_eq _ _ _

/-- The loop body for an order stored with the status the venue reports: no call to the store,
which stays as it is. -/
theorem reconcileOrder_same (r : Reconciler) (db : TimescaleDB) (o : Order) (ex : Interface)
    (hex : r.exchangeManager.GetExchange o.Exchange = some ex)
    (hsame : ex.GetOrderStatus o.ID = Except.ok o.Status) :
    (reconcileOrder r db o).2.1 = db := by
  simp [reconcileOrder, hex, hsame]

/-- A cycle over orders stored under other ids leaves the order rows under `id` and the settings
of the store as they are. -/
theorem reconcileOrders_rows_other (r : Reconciler) (id : String) (os : List Order) :
    ∀ db : TimescaleDB, (∀ o ∈ os, o.ID ≠ id) →
      (reconcileOrders r db os).db.orders.filter (fun x => decide (x.ID = id)) =
        db.orders.filter (fun x => decide (x.ID = id)) ∧
      (reconcileOrders r db os).db.needsReconciliation = db.needsReconciliation ∧
      (reconcileOrders r db os).db.fails = db.fails := by
  induction os with
  | nil => intro db _; exact ⟨rfl, rfl, rfl⟩
  | cons o os ih =>
    intro db hall
    have h1 := reconcileOrder_rows_other r db o id (hall o (List.mem_cons_self o os))
    have h2 := ih (reconcileOrder r db o).2.1 (fun x hx => hall x (List.mem_cons_of_mem o hx))
    simp only [reconcileOrders]
    exact ⟨h2.1.trans h1.1, h2.2.1.trans h1.2.1, h2.2.2.trans h1.2.2⟩

/-- A cycle over orders stored under other ids leaves the trade rows under `id` as they are. -/
theorem reconcileOrders_trades_other (r : Reconciler) (id : String)
    (hbel : TradesBelong r.exchangeManager) (os : List Order) :
    ∀ db : TimescaleDB, (∀ o ∈ os, o.ID ≠ id) →
      (reconcileOrders r db os).db.tradeRows id = db.tradeRows id := by
  induction os with
  | nil => intro db _; rfl
  | cons o os ih =>
    intro db hall
    have h1 := reconcileOrder_trades_other r db o id hbel (hall o (List.mem_cons_self o os))
    have h2 := ih (reconcileOrder r db o).2.1 (fun x hx => hall x (List.mem_cons_of_mem o hx))
    simp only [reconcileOrders]
    exact h2.trans h1

/-- A cycle over a list in which `O` is the one order under its id, when the venue reports `O`
filled with trade details `ts`, `O` is not stored as filled and no write for `O` is reported as
failed. -/
theorem reconcileOrders_fill (r : Reconciler) (O : Order) (ex : Interface) (ts : List Trade)
    (hbel : TradesBelong r.exchangeManager)
    (hex : r.exchangeManager.GetExchange O.Exchange = some ex)
    (hfilled : ex.GetOrderStatus O.ID = Except.ok Status.Filled)
    (hts : r.exchangeManager.GetTradeDetails O.Exchange O.ID = Except.ok ts)
    (hst : O.Status ≠ Status.Filled) (os : List Order) :
    ∀ db : TimescaleDB, os.filter (fun x => decide (x.ID = O.ID)) = [O] →
      RecEvent.updateFailed O.ID Status.Filled ∉ (reconcileOrders r db os).events →
      (∀ t ∈ ts, RecEvent.logTradeFailed t ∉ (reconcileOrders r db os).events) →
      (reconcileOrders r db os).db.tradeRows O.ID = db.tradeRows O.ID ++ ts ∧
      (reconcileOrders r db os).db.orders.filter (fun x => decide (x.ID = O.ID)) =
        (db.orders.filter (fun x => decide (x.ID = O.ID))).map
          (fun x => { x with Status := Status.Filled }) ∧
      (reconcileOrders r db os).db.needsReconciliation = db.needsReconciliation ∧
      (reconcileOrders r db os).db.fails = db.fails := by
  induction os with
  | nil => intro db h; simp at h
  | cons o os ih =>
    intro db hone hnoU hnoL
    simp only [reconcileOrders] at hnoU hnoL ⊢
    obtain ⟨s1, s2, _, _⟩ := reconcileOrder_store r db o
    by_cases hid : o.ID = O.ID
    · rw [List.filter_cons_of_pos (by simpa using hid)] at hone
      have ho : o = O := (List.cons.inj hone).1
      have hrest : ∀ x ∈ os, x.ID ≠ O.ID := by
        intro x hx
        have hnil := (List.cons.inj hone).2
        rw [List.filter_eq_nil_iff] at hnil
        simpa using hnil x hx
      subst ho
      have h1 := reconcileOrder_fill r db o ex ts hbel hex hfilled hts hst
        (fun hmem => hnoU (List.mem_append_left _ hmem))
        (fun t ht hmem => hnoL t ht (List.mem_append_left _ hmem))
      have h2 := reconcileOrders_rows_other r o.ID os (reconcileOrder r db o).2.1 hrest
      have h3 := reconcileOrders_trades_other r o.ID hbel os (reconcileOrder r db o).2.1 hrest
      exact ⟨h3.trans h1.1, h2.1.trans h1.2, h2.2.1.trans s1, h2.2.2.trans s2⟩
    · rw [List.filter_cons_of_neg (by simpa using hid)] at hone
      have h1 := reconcileOrder_rows_other r db o O.ID hid
      have h1t := reconcileOrder_trades_other r db o O.ID hbel hid
      have h2 := ih (reconcileOrder r db o).2.1 hone
        (fun hmem => hnoU (List.mem_append_right _ hmem))
        (fun t ht hmem => hnoL t ht (List.mem_append_right _ hmem))
      refine ⟨?_, ?_, h2.2.2.1.trans s1, h2.2.2.2.trans s2⟩
      · rw [h2.1, h1t]
      · rw [h2.2.1, h1.1]

/-- A cycle over a list in which every order under the id of `O` is already stored as filled,
when the venue reports `O` filled: no trade row is added for `O`, whichever calls to the store
fail. -/
theorem reconcileOrders_settled (r : Reconciler) (O : Order) (ex : Interface)
    (hbel : TradesBelong r.exchangeManager)
    (hex : r.exchangeManager.GetExchange O.Exchange = some ex)
    (hfilled : ex.GetOrderStatus O.ID = Except.ok Status.Filled) (os : List Order) :
    ∀ db : TimescaleDB,
      (∀ o ∈ os, o.ID = O.ID → o.Exchange = O.Exchange ∧ o.Status = Status.Filled) →
      (reconcileOrders r db os).db.tradeRows O.ID = db.tradeRows O.ID := by
  induction os with
  | nil => intro db _; rfl
  | cons o os ih =>
    intro db hall
    simp only [reconcileOrders]
    have hrest := ih (reconcileOrder r db o).2.1
      (fun x hx => hall x (List.mem_cons_of_mem o hx))
    rw [hrest]
    by_cases hid : o.ID = O.ID
    · obtain ⟨hexch, hstat⟩ := hall o (List.mem_cons_self o os) hid
      rw [reconcileOrder_same r db o ex (by rw [hexch]; exact hex)
        (by rw [hid, hstat]; exact hfilled)]
    · exact reconcileOrder_trades_other r db o O.ID hbel hid

/-- The two ways a cycle can go: the orders are fetched and handled in turn, or the query fails
and the cycle returns the error without handling an order. -/
theorem Reconcile_cases (r : Reconciler) (db : TimescaleDB) :
    ((Reconcile r db).1 = Except.ok () ∧ db.fails db.calls = false ∧
      db.GetOrdersForReconciliation.1 = Except.ok (db.orders.filter db.needsReconciliation) ∧
      (Reconcile r db).2 = reconcileOrders r { db with calls := db.calls + 1 }
        (db.orders.filter db.needsReconciliation)) ∨
    ((∃ e, (Reconcile r db).1 = Except.error e) ∧ db.fails db.calls = true ∧
      (∃ e, db.GetOrdersForReconciliation.1 = Except.error e) ∧
      (Reconcile r db).2 =
        { orders := [], db := { db with calls := db.calls + 1 }, events := [] }) := by
  by_cases hf : db.fails db.calls = true
  · right
    simp [Reconcile, TimescaleDB.GetOrdersForReconciliation, hf]
  · left
    simp [Reconcile, TimescaleDB.GetOrdersForReconciliation, hf]

/-- A property of every element of the first list may be added to a pointwise relation. -/
theorem forall₂_of_mem {α β : Type} (R : α → β → Prop) (Q : α → Prop) :
    ∀ (l1 : List α) (l2 : List β), List.Forall₂ R l1 l2 → (∀ a ∈ l1, Q a) →
      List.Forall₂ (fun a b => Q a ∧ R a b) l1 l2 := by
  intro l1 l2 h
  induction h with
  | nil => intro _; exact List.Forall₂.nil
  | cons hab _ ih =>
    intro hall
    exact List.Forall₂.cons ⟨hall _ (List.mem_cons_self _ _), hab⟩
      (ih (fun a ha => hall a (List.mem_cons_of_mem _ ha)))

/-- An order that the query of the specification returns is sent-to-venue or partially-filled,
and its status is not terminal. -/
theorem openOrder_status (o : Order) (h : openOrder o = true) :
    (o.Status = Status.SentToExchange ∨ o.Status = Status.PartiallyFilled) ∧
    o.Status.terminal = false := by
  unfold openOrder at h
  cases hs : o.Status <;> simp_all [Status.terminal]

/-- Counterexample to claim C8 as stated. The order `X9`, stored as sent to `coinbase`, is
handed to a cycle by the store; the venue reports it pending and the cycle moves it, in memory
and in the store, to `Pending`, which is not a reconciler-owned transition. In the same way a
sent order is moved to `Failed` and to `Rejected`, and a partially-filled order back to
`SentToExchange`, when the venue reports that status. -/
theorem reconciler_steps_refuted :
    (storeOf (sentOrder "X9" "coinbase")).GetOrdersForReconciliation.1 =
      Except.ok [sentOrder "X9" "coinbase"] ∧
    (sentOrder "X9" "coinbase").Status = Status.SentToExchange ∧
    (Reconcile reconciler (storeOf (sentOrder "X9" "coinbase"))).2.orders.map
      (fun o => o.Status) = [Status.Pending] ∧
    (Reconcile reconciler (storeOf (sentOrder "X9" "coinbase"))).2.db.storedStatus "X9" =
      [Status.Pending] ∧
    ¬ ReconcilerStep Status.SentToExchange Status.Pending ∧
    (Reconcile (reconcilerReporting Status.Failed)
      (storeOf (sentOrder "X9" "venue"))).2.db.storedStatus "X9" = [Status.Failed] ∧
    (Reconcile (reconcilerReporting Status.Rejected)
      (storeOf (sentOrder "X9" "venue"))).2.db.storedStatus "X9" = [Status.Rejected] ∧
    (storeOf { sentOrder "X9" "venue" with
      Status := Status.PartiallyFilled }).GetOrdersForReconciliation.1 =
      Except.ok [{ sentOrder "X9" "venue" with Status := Status.PartiallyFilled }] ∧
    (Reconcile (reconcilerReporting Status.SentToExchange)
      (storeOf { sentOrder "X9" "venue" with
        Status := Status.PartiallyFilled })).2.db.storedStatus "X9" =
      [Status.SentToExchange] := by
  refine ⟨rfl, rfl, by decide, by decide, by decide, by decide, by decide, rfl, by decide⟩

/-- Claim C8, amended. In a cycle whose query is the one of the specification, every order
handed to the cycle is sent-to-venue or partially-filled; a status change that the cycle applies
to it is a move to the status its venue reported; for every status the venue reports that
differs from the order's, the order is moved to that status, and the move is one of the five
reconciler-owned transitions exactly when the reported status is partially-filled, filled or
cancelled. The cycle never changes an order whose status is already terminal: the stored rows
of an id whose stored status is terminal are after the cycle what they were before it. -/
theorem reconcile_follows_venue (r : Reconciler) (db : TimescaleDB)
    (hq : db.needsReconciliation = openOrder) :
    (∀ os, db.GetOrdersForReconciliation.1 = Except.ok os →
      List.Forall₂
        (fun o o' =>
          (o.Status = Status.SentToExchange ∨ o.Status = Status.PartiallyFilled) ∧
          (o'.Status ≠ o.Status →
            ∃ ex, r.exchangeManager.GetExchange o.Exchange = some ex ∧
              ex.GetOrderStatus o.ID = Except.ok o'.Status) ∧
          (∀ ex s, r.exchangeManager.GetExchange o.Exchange = some ex →
            ex.GetOrderStatus o.ID = Except.ok s → s ≠ o.Status →
            o'.Status = s ∧
            (ReconcilerStep o.Status o'.Status ↔
              (s = Status.PartiallyFilled ∨ s = Status.Filled ∨ s = Status.Cancelled))))
        os (Reconcile r db).2.orders) ∧
    (∀ id, (∀ o ∈ db.orders, o.ID = id → o.Status.terminal = true) →
      (Reconcile r db).2.db.orders.filter (fun o => decide (o.ID = id)) =
        db.orders.filter (fun o => decide (o.ID = id))) := by
  rcases Reconcile_cases r db with ⟨_, _, hget, hrun⟩ | ⟨_, _, ⟨e, hget⟩, hrun⟩
  · refine ⟨?_, ?_⟩
    · intro os hos
      rw [hget] at hos
      have hos' : db.orders.filter db.needsReconciliation = os := by
        injection hos
      rw [hrun, hos']
      have hopen : ∀ o ∈ os, openOrder o = true := by
        intro o ho
        rw [← hos', List.mem_filter, hq] at ho
        exact ho.2
      refine List.Forall₂.imp ?_
        (forall₂_of_mem _ (fun o => openOrder o = true) os _
          (reconcileOrders_each r { db with calls := db.calls + 1 } os) hopen)
      intro o o' h
      obtain ⟨ho, h⟩ := h
      have hst := (openOrder_status o ho).1
      refine ⟨hst, ?_, ?_⟩
      · intro hne
        cases hex : r.exchangeManager.GetExchange o.Exchange with
        | none =>
          rw [h.2 (Or.inl hex)] at hne
          exact absurd rfl hne
        | some ex =>
          cases hs : ex.GetOrderStatus o.ID with
          | error e =>
            rw [h.2 (Or.inr ⟨ex, e, hex, hs⟩)] at hne
            exact absurd rfl hne
          | ok s =>
            refine ⟨ex, rfl, ?_⟩
            rw [h.1 ex s hex hs]
            exact hs
      · intro ex s hex hs hne
        rw [h.1 ex s hex hs]
        refine ⟨rfl, ?_⟩
        unfold ReconcilerStep
        rcases hst with hst | hst <;> rw [hst] at hne ⊢ <;> cases s <;> simp_all
    · intro id hterm
      rw [hrun]
      refine (reconcileOrders_rows_other r id _ { db with calls := db.calls + 1 } ?_).1
      intro o ho hid
      rw [List.mem_filter, hq] at ho
      have h1 := hterm o ho.1 hid
      rw [(openOrder_status o ho.2).2] at h1
      cases h1
  · refine ⟨?_, ?_⟩
    · intro os hos
      rw [hget] at hos
      cases hos
    · intro id _
      rw [hrun]

/-- Witness of the amended claim C8, at the store that holds `B1`, sent to `binance`, and `F4`,
filled at `coinbase`: the cycle promotes `B1` from `SentToExchange` to `Filled`, a
reconciler-owned transition, and leaves the row of `F4` as it is, although `coinbase` reports
every order pending. -/
theorem reconcile_follows_venue_witness :
    mixedStore.needsReconciliation = openOrder ∧
    mixedStore.GetOrdersForReconciliation.1 = Except.ok [sentOrder "B1" "binance"] ∧
    (Reconcile reconciler mixedStore).2.orders.map (fun o => o.Status) = [Status.Filled] ∧
    ReconcilerStep (sentOrder "B1" "binance").Status Status.Filled ∧
    mixedStore.storedStatus "F4" = [Status.Filled] ∧
    (Reconcile reconciler mixedStore).2.db.storedStatus "F4" = [Status.Filled] := by
  have h := reconcile_follows_venue reconciler mixedStore rfl
  have h1 := h.1 [sentOrder "B1" "binance"] rfl
  have h2 := h.2 "F4" (by decide)
  refine ⟨rfl, rfl, ?_, ?_, by decide, ?_⟩
  · generalize (Reconcile reconciler mixedStore).2.orders = out at h1
    cases h1 with
    | cons hhead htail =>
      cases htail
      simp only [List.map_cons, List.map_nil]
      rw [(hhead.2.2 venueB1 Status.Filled rfl rfl (by decide)).1]
  · generalize (Reconcile reconciler mixedStore).2.orders = out at h1
    cases h1 with
    | cons hhead htail =>
      have h3 := hhead.2.2 venueB1 Status.Filled rfl rfl (by decide)
      rw [h3.1] at h3
      exact h3.2.mpr (Or.inr (Or.inl rfl))
  · unfold TimescaleDB.storedStatus
    rw [h2]
    decide

/-- Counterexample to claim C9 as stated: the order `B1`, stored as sent to `binance`, which
reports it filled with the two fills `fillsB1`, in a store one call of which fails. When the
status write fails, the first cycle reports it and goes on: it inserts the two trade rows and
leaves the stored status `SentToExchange`, so the second cycle handles `B1` again and inserts
the two fills a second time, four rows in all. When the insert of the first fill fails, the
first cycle stores `Filled` and one trade row. When the query fails, the first cycle stores
nothing. -/
theorem fill_handling_duplicates :
    (flakyStoreOf 1 (sentOrder "B1" "binance")).storedStatus "B1" = [Status.SentToExchange] ∧
    registry.GetExchange "binance" = some venueB1 ∧
    venueB1.GetOrderStatus "B1" = Except.ok Status.Filled ∧
    registry.GetTradeDetails "binance" "B1" = Except.ok fillsB1 ∧
    fillsB1.length = 2 ∧
    (Reconcile reconciler (flakyStoreOf 1 (sentOrder "B1" "binance"))).2.db.storedStatus "B1" =
      [Status.SentToExchange] ∧
    ((Reconcile reconciler (flakyStoreOf 1 (sentOrder "B1" "binance"))).2.db.tradeRows
      "B1").length = 2 ∧
    ((Reconcile reconciler (Reconcile reconciler
      (flakyStoreOf 1 (sentOrder "B1" "binance"))).2.db).2.db.tradeRows "B1").length = 4 ∧
    (Reconcile reconciler (flakyStoreOf 2 (sentOrder "B1" "binance"))).2.db.storedStatus "B1" =
      [Status.Filled] ∧
    ((Reconcile reconciler (flakyStoreOf 2 (sentOrder "B1" "binance"))).2.db.tradeRows
      "B1").length = 1 ∧
    (Reconcile reconciler (flakyStoreOf 0 (sentOrder "B1" "binance"))).2.db.storedStatus "B1" =
      [Status.SentToExchange] ∧
    ((Reconcile reconciler (flakyStoreOf 0 (sentOrder "B1" "binance"))).2.db.tradeRows
      "B1").length = 0 := by
  refine ⟨by decide, rfl, rfl, rfl, rfl, by decide, by decide, by decide, by decide, by decide,
    by decide, by decide⟩

/-- Claim C9, amended. Idempotent fill handling when the store takes the writes: when `O` is the
row stored under its id, stored as sent and returned by the reconciliation query, its venue
reports it filled with the trade details `T`, and a cycle returns no error and reports no failed
write of the status of `O` and no failed insert of a trade of `T`, then that cycle sets the
stored status of `O` to `Filled` and appends exactly the rows `T` to the trade rows of `O`, and
a second cycle with the same venue answers appends no trade row for `O`, whichever calls to the
store fail in it. -/
theorem fill_handling_idempotent (r : Reconciler) (db : TimescaleDB) (O : Order)
    (ex : Interface) (T : List Trade)
    (hrow : db.orders.filter (fun x => decide (x.ID = O.ID)) = [O])
    (hsent : O.Status = Status.SentToExchange)
    (hneeds : db.needsReconciliation O = true)
    (hex : r.exchangeManager.GetExchange O.Exchange = some ex)
    (hfilled : ex.GetOrderStatus O.ID = Except.ok Status.Filled)
    (hT : r.exchangeManager.GetTradeDetails O.Exchange O.ID = Except.ok T)
    (hbel : TradesBelong r.exchangeManager)
    (hok : (Reconcile r db).1 = Except.ok ())
    (hnoU : RecEvent.updateFailed O.ID Status.Filled ∉ (Reconcile r db).2.events)
    (hnoL : ∀ t ∈ T, RecEvent.logTradeFailed t ∉ (Reconcile r db).2.events) :
    (Reconcile r db).2.db.storedStatus O.ID = [Status.Filled] ∧
    (Reconcile r db).2.db.tradeRows O.ID = db.tradeRows O.ID ++ T ∧
    ((Reconcile r db).2.db.tradeRows O.ID).length = (db.tradeRows O.ID).length + T.length ∧
    (Reconcile r (Reconcile r db).2.db).2.db.tradeRows O.ID =
      (Reconcile r db).2.db.tradeRows O.ID := by
  have hst : O.Status ≠ Status.Filled := by rw [hsent]; decide
  have hone : (db.orders.filter db.needsReconciliation).filter
      (fun x => decide (x.ID = O.ID)) = [O] := by
    rw [List.filter_filter]
    have hcomm : (db.orders.filter (fun a => decide (a.ID = O.ID) && db.needsReconciliation a)) =
        (db.orders.filter (fun x => decide (x.ID = O.ID))).filter db.needsReconciliation := by
      rw [List.filter_filter]
      congr 1
      funext a
      exact Bool.and_comm _ _
    rw [hcomm, hrow]
    simp [hneeds]
  have hrun : (Reconcile r db).2 = reconcileOrders r { db with calls := db.calls + 1 }
      (db.orders.filter db.needsReconciliation) := by
    rcases Reconcile_cases r db with ⟨_, _, _, h⟩ | ⟨⟨e, he⟩, _⟩
    · exact h
    · rw [hok] at he
      cases he
  rw [hrun] at hnoU hnoL
  have h1 := reconcileOrders_fill r O ex T hbel hex hfilled hT hst
    (db.orders.filter db.needsReconciliation) { db with calls := db.calls + 1 } hone hnoU hnoL
  have htr : (Reconcile r db).2.db.tradeRows O.ID = db.tradeRows O.ID ++ T := by
    rw [hrun]
    exact h1.1
  have hrows : (Reconcile r db).2.db.orders.filter (fun x => decide (x.ID = O.ID)) =
      [{ O with Status := Status.Filled }] := by
    rw [hrun, h1.2.1]
    show (db.orders.filter (fun x => decide (x.ID = O.ID))).map _ = _
    rw [hrow]
    rfl
  have hsecond : (Reconcile r (Reconcile r db).2.db).2.db.tradeRows O.ID =
      (Reconcile r db).2.db.tradeRows O.ID := by
    rcases Reconcile_cases r (Reconcile r db).2.db with ⟨_, _, _, h⟩ | ⟨_, _, _, h⟩
    · rw [h]
      refine reconcileOrders_settled r O ex hbel hex hfilled _
        { (Reconcile r db).2.db with calls := (Reconcile r db).2.db.calls + 1 } ?_
      intro o ho hid
      have hmem : o ∈ (Reconcile r db).2.db.orders.filter
          (fun x => decide (x.ID = O.ID)) := by
        rw [List.mem_filter]
        exact ⟨(List.mem_filter.mp ho).1, by simpa using hid⟩
      rw [hrows, List.mem_singleton] at hmem
      rw [hmem]
      exact ⟨rfl, rfl⟩
    · rw [h]
      rfl
  refine ⟨?_, htr, ?_, hsecond⟩
  · unfold TimescaleDB.storedStatus
    rw [hrows]
    rfl
  · rw [htr, List.length_append]

/-- The registry of the scenarios returns, for an order id, trades of that order. -/
theorem registry_tradesBelong : TradesBelong registry := by
  intro name id ts h t ht
  unfold ExchangeManager.GetTradeDetails registry at h
  by_cases hid : id = "B1"
  · simp only [hid, if_true, Except.ok.injEq] at h
    rw [← h] at ht
    simp only [fillsB1, List.mem_cons, List.mem_singleton, List.not_mem_nil, or_false] at ht
    rcases ht with ht | ht <;> rw [ht, hid]
  · simp only [hid, if_false, Except.ok.injEq] at h
    rw [← h] at ht
    cases ht

/-- Witness of the amended claim C9 (scenario 6): the order `B1` stored as sent, reported filled
with two fills, in a store no call of which fails: two trade rows after one cycle, and still two
after a second cycle. -/
theorem fill_handling_idempotent_witness :
    (Reconcile reconciler (storeOf (sentOrder "B1" "binance"))).1 = Except.ok () ∧
    (Reconcile reconciler (storeOf (sentOrder "B1" "binance"))).2.db.storedStatus "B1" =
      [Status.Filled] ∧
    ((Reconcile reconciler (storeOf (sentOrder "B1" "binance"))).2.db.tradeRows "B1").length
      = 2 ∧
    ((Reconcile reconciler
      (Reconcile reconciler (storeOf (sentOrder "B1" "binance"))).2.db).2.db.tradeRows
        "B1").length = 2 := by
  have h := fill_handling_idempotent reconciler (storeOf (sentOrder "B1" "binance"))
    (sentOrder "B1" "binance") venueB1 fillsB1 (by decide) rfl rfl rfl rfl rfl
    registry_tradesBelong rfl (by decide) (by decide)
  have hlen : ((Reconcile reconciler (storeOf (sentOrder "B1" "binance"))).2.db.tradeRows
      "B1").length = 2 := h.2.2.1
  refine ⟨rfl, h.1, hlen, ?_⟩
  have h4 := h.2.2.2
  have hid : (sentOrder "B1" "binance").ID = "B1" := rfl
  rw [hid] at h4
  rw [h4]
  exact hlen

/-! ## Theorems: trade stream aggregator -/

theorem mapGet_mapSet_eq {β : Type} (l : List (String × β)) (k : String) (v : β) :
    mapGet (mapSet l k v) k = some v := by
  induction l with
  | nil => simp [mapSet, mapGet]
  | cons p l ih =>
    obtain ⟨k', v'⟩ := p
    by_cases h : k' = k <;> simp [mapSet, mapGet, h, ih]

theorem mapGet_mapSet_ne {β : Type} (l : List (String × β)) (k k' : String) (v : β)
    (hne : k' ≠ k) : mapGet (mapSet l k v) k' = mapGet l k' := by
  induction l with
  | nil => simp [mapSet, mapGet, hne.symm]
  | cons p l ih =>
    obtain ⟨k1, v1⟩ := p
    by_cases h : k1 = k
    · have h2 : ¬ k = k' := fun e => hne e.symm
      have h3 : ¬ k1 = k' := fun e => hne (e.symm.trans h)
      simp [mapSet, mapGet, h, h2]
    · by_cases h4 : k1 = k'
      · subst h4
        simp [mapSet, mapGet, h]
      · simp [mapSet, mapGet, h, h4, ih]

/-- The loop over the venues leaves the aggregated channels, the channel counter and the
registry as they are, and touches the inbound channels of its own symbol only. -/
theorem openStreams_keeps (symbol : String) (aggCh : Chan) (exs : List (String × Interface)) :
    ∀ a : Aggregator,
      (openStreams symbol aggCh exs a).aggregated = a.aggregated ∧
      (openStreams symbol aggCh exs a).made = a.made ∧
      (openStreams symbol aggCh exs a).exchangeManager = a.exchangeManager ∧
      ∀ other, other ≠ symbol →
        mapGet (openStreams symbol aggCh exs a).streams other = mapGet a.streams other := by
  induction exs with
  | nil => intro a; exact ⟨rfl, rfl, rfl, fun _ _ => rfl⟩
  | cons p exs ih =>
    intro a
    obtain ⟨name, ex⟩ := p
    simp only [openStreams]
    split
    · exact ih _
    · rename_i c _
      have h := ih { a with
        opened := a.opened + 1,
        streams := (mapSet a.streams symbol
          (mapSet ((mapGet a.streams symbol).getD []) name (Chan.inbound c))),
        fanIns := (a.fanIns ++ [FanIn.mk name symbol (Chan.inbound c) aggCh]) }
      refine ⟨h.1, h.2.1, h.2.2.1, ?_⟩
      intro other hne
      rw [h.2.2.2 other hne]
      exact mapGet_mapSet_ne _ _ _ _ hne

/-- A call of `GetStream` for a symbol that has an aggregated channel returns that channel and
leaves the aggregator as it is. -/
theorem GetStream_existing (a : Aggregator) (S : String) (ch : Chan)
    (h : mapGet a.aggregated S = some ch) : GetStream a S = (ch, a) := by
  simp [GetStream, h]

/-- A call of `GetStream`, for any symbol, keeps the aggregated channel of a subscribed
symbol. -/
theorem GetStream_keeps (a : Aggregator) (S S' : String) (ch : Chan)
    (h : mapGet a.aggregated S = some ch) :
    mapGet (GetStream a S').2.aggregated S = some ch := by
  cases h' : mapGet a.aggregated S' with
  | some ch' => rw [GetStream_existing a S' ch' h']; exact h
  | none =>
    have hne : S ≠ S' := by
      intro e
      rw [e, h'] at h
      cases h
    simp only [GetStream, createStream, h']
    rw [(openStreams_keeps S' _ _ _).1]
    simpa [mapGet_mapSet_ne _ S' S _ hne] using h

theorem subscribeAll_keeps (symbols : List String) (S : String) (ch : Chan) :
    ∀ a : Aggregator, mapGet a.aggregated S = some ch →
      mapGet (subscribeAll a symbols).aggregated S = some ch := by
  induction symbols with
  | nil => intro a h; exact h
  | cons s symbols ih =>
    intro a h
    exact ih (GetStream a s).2 (GetStream_keeps a S s ch h)

/-- The channel that `GetStream` returns is the aggregated channel registered for the symbol. -/
theorem GetStream_registers (a : Aggregator) (S : String) :
    mapGet (GetStream a S).2.aggregated S = some (GetStream a S).1 := by
  cases h : mapGet a.aggregated S with
  | some ch => rw [GetStream_existing a S ch h]; exact h
  | none =>
    simp only [GetStream, createStream, h]
    rw [(openStreams_keeps S _ _ _).1]
    exact mapGet_mapSet_eq _ _ _

/-- Claim C10. Calling `GetStream(S)` twice returns the same channel identity: the first call
returns a channel registered as the aggregated channel of `S` (created by one `make` when `S`
had none) and leaves the entries of every other symbol as they are; every later call for `S`,
after calls for any other symbols, returns that same channel and leaves the aggregator as it
is: no channel is created, no venue stream is requested, no entry changes. -/
theorem getStream_same_channel (a : Aggregator) (S : String) :
    mapGet (GetStream a S).2.aggregated S = some (GetStream a S).1 ∧
    (mapGet a.aggregated S = none →
      (GetStream a S).1 = Chan.made a.made ∧ (GetStream a S).2.made = a.made + 1) ∧
    (∀ other, other ≠ S →
      mapGet (GetStream a S).2.aggregated other = mapGet a.aggregated other ∧
      mapGet (GetStream a S).2.streams other = mapGet a.streams other) ∧
    (∀ symbols : List String,
      GetStream (subscribeAll (GetStream a S).2 symbols) S =
        ((GetStream a S).1, subscribeAll (GetStream a S).2 symbols)) := by
  refine ⟨GetStream_registers a S, ?_, ?_, ?_⟩
  · intro h
    simp only [GetStream, createStream, h]
    exact ⟨trivial, (openStreams_keeps S _ _ _).2.1⟩
  · intro other hne
    cases h : mapGet a.aggregated S with
    | some ch => rw [GetStream_existing a S ch h]; exact ⟨rfl, rfl⟩
    | none =>
      simp only [GetStream, createStream, h]
      have hk := openStreams_keeps S (Chan.made a.made) a.exchangeManager.GetAllExchanges
        { a with
          made := a.made + 1,
          aggregated := (mapSet a.aggregated S (Chan.made a.made)),
          streams := (mapSet a.streams S []) }
      rw [hk.1, hk.2.2.2 other hne]
      exact ⟨mapGet_mapSet_ne _ _ _ _ hne, mapGet_mapSet_ne _ _ _ _ hne⟩
  · intro symbols
    exact GetStream_existing _ S _
      (subscribeAll_keeps symbols S _ _ (GetStream_registers a S))

/-- Witness of claim C10: on a fresh aggregator the first `GetStream` for `BTCUSDT` returns the
first channel made, and so does the second. -/
theorem getStream_same_channel_witness :
    (GetStream (NewAggregator registry) "BTCUSDT").1 = Chan.made 0 ∧
    (GetStream (GetStream (NewAggregator registry) "BTCUSDT").2 "BTCUSDT").1 = Chan.made 0 :=
  have h := getStream_same_channel (NewAggregator registry) "BTCUSDT"
  ⟨(h.2.1 rfl).1, (congrArg Prod.fst (h.2.2.2 [])).trans (h.2.1 rfl).1⟩

/-! ## Theorems: fan-in -/

theorem Feed.run_concat (cap : Nat) (s : Feed) (steps : List Step) (st : Step) :
    Feed.run cap s (steps ++ [st]) = Feed.step cap (Feed.run cap s steps) st := by
  simp [Feed.run, List.foldl_append]

theorem inboundOf_concat (f : FanIn) (steps : List Step) (st : Step) :
    inboundOf f (steps ++ [st]) = inboundOf f steps ++ inboundOf f [st] := by
  simp [inboundOf, List.filterMap_append]

/-- A receive step leaves the records of the fan-in tasks as they are. -/
theorem Feed.step_receive (cap : Nat) (s : Feed) :
    (Feed.step cap s Step.receive).attempts = s.attempts ∧
    (Feed.step cap s Step.receive).sent = s.sent ∧
    (Feed.step cap s Step.receive).received ++ (Feed.step cap s Step.receive).buffer =
      s.received ++ s.buffer ∧
    (Feed.step cap s Step.receive).buffer.length ≤ s.buffer.length := by
  unfold Feed.step
  cases hb : s.buffer with
  | nil => simp [hb]
  | cons t rest => simp

/-- A deliver step when the aggregated channel has room: the stamped event is sent. -/
theorem Feed.step_deliver_room (cap : Nat) (s : Feed) (g : FanIn) (trade : TradeEvent)
    (h : s.buffer.length < cap) :
    Feed.step cap s (Step.deliver g trade) =
      { buffer := s.buffer ++ [stamp g.exchangeName trade]
        received := s.received
        attempts := s.attempts ++ [(g, trade, s.buffer.length)]
        sent := s.sent ++ [(g, stamp g.exchangeName trade)] } := by
  simp [Feed.step, fanInIteration, h, stamp]

/-- A deliver step when the aggregated channel is full: the event is dropped, the send does
not take place and the channel stays as it is. -/
theorem Feed.step_deliver_full (cap : Nat) (s : Feed) (g : FanIn) (trade : TradeEvent)
    (h : ¬ s.buffer.length < cap) :
    Feed.step cap s (Step.deliver g trade) =
      { buffer := s.buffer
        received := s.received
        attempts := s.attempts ++ [(g, trade, s.buffer.length)]
        sent := s.sent } := by
  simp [Feed.step, fanInIteration, h]

/-- The iterations of one fan-in task over a schedule: they take the inbound events in order,
and the events sent are those met by a channel with room, stamped. -/
theorem Feed.run_task (f : FanIn) (cap : Nat) (buffer : List TradeEvent) (steps : List Step) :
    ((Feed.run cap (Feed.start buffer) steps).attemptsOf f).map (fun p => p.1) =
      inboundOf f steps ∧
    (Feed.run cap (Feed.start buffer) steps).sentBy f =
      (((Feed.run cap (Feed.start buffer) steps).attemptsOf f).filter
        (fun p => decide (p.2 < cap))).map (fun p => stamp f.exchangeName p.1) := by
  induction steps using List.reverseRecOn with
  | nil => exact ⟨rfl, rfl⟩
  | append_singleton steps st ih =>
    rw [Feed.run_concat, inboundOf_concat]
    cases st with
    | receive =>
      have h := Feed.step_receive cap (Feed.run cap (Feed.start buffer) steps)
      simp only [Feed.attemptsOf, Feed.sentBy, h.1, h.2.1]
      simp only [Feed.attemptsOf, Feed.sentBy] at ih
      refine ⟨?_, ih.2⟩
      rw [ih.1]
      simp [inboundOf]
    | deliver g trade =>
      simp only [Feed.attemptsOf, Feed.sentBy] at ih
      by_cases hroom : (Feed.run cap (Feed.start buffer) steps).buffer.length < cap
      · rw [Feed.step_deliver_room cap _ g trade hroom]
        by_cases hg : g = f
        · subst hg
          simp only [Feed.attemptsOf, Feed.sentBy, List.filter_append, List.map_append, ih.1,
            ih.2]
          simp [inboundOf, hroom]
        · simp only [Feed.attemptsOf, Feed.sentBy, List.filter_append, List.map_append, ih.1,
            ih.2]
          simp [inboundOf, hg]
      · rw [Feed.step_deliver_full cap _ g trade hroom]
        by_cases hg : g = f
        · subst hg
          simp only [Feed.attemptsOf, Feed.sentBy, List.filter_append, List.map_append, ih.1,
            ih.2]
          simp [inboundOf, hroom]
        · simp only [Feed.attemptsOf, Feed.sentBy, List.filter_append, List.map_append, ih.1,
            ih.2]
          simp [inboundOf, hg]

/-- The aggregated channel is first in, first out: what it held at the start followed by the
events sent is what the consumer received followed by what the channel holds; and the channel
never holds more than its capacity, if it did not at the start. -/
theorem Feed.run_fifo (cap : Nat) (buffer : List TradeEvent) (steps : List Step) :
    buffer ++ (Feed.run cap (Feed.start buffer) steps).sent.map (fun p => p.2) =
      (Feed.run cap (Feed.start buffer) steps).received ++
        (Feed.run cap (Feed.start buffer) steps).buffer ∧
    (buffer.length ≤ cap → (Feed.run cap (Feed.start buffer) steps).buffer.length ≤ cap) := by
  induction steps using List.reverseRecOn with
  | nil => simp [Feed.run, Feed.start]
  | append_singleton steps st ih =>
    rw [Feed.run_concat]
    cases st with
    | receive =>
      have h := Feed.step_receive cap (Feed.run cap (Feed.start buffer) steps)
      rw [h.2.1, h.2.2.1]
      exact ⟨ih.1, fun hb => le_trans h.2.2.2 (ih.2 hb)⟩
    | deliver g trade =>
      by_cases hroom : (Feed.run cap (Feed.start buffer) steps).buffer.length < cap
      · rw [Feed.step_deliver_room cap _ g trade hroom]
        refine ⟨?_, fun _ => ?_⟩
        · simp only [List.map_append, List.map_cons, List.map_nil]
          rw [← List.append_assoc, ih.1, List.append_assoc]
        · simp only [List.length_append, List.length_singleton]
          omega
      · rw [Feed.step_deliver_full cap _ g trade hroom]
        exact ih

/-- Claim C13. Fan-in preserves per-venue FIFO under the drop policy: for every fan-in task,
every capacity and initial content of the aggregated channel and every schedule of deliveries
and consumer reads, the task runs one iteration for each inbound event, in order, whether the
channel is full or not (the send never blocks); the events it forwards are exactly the inbound
events that met a channel holding fewer events than its capacity at the moment of forwarding,
each stamped with the venue name and otherwise unmodified; so they are, in order, a subsequence
of the stamped inbound sequence; and the consumer receives what was sent in the order of
sending. -/
theorem fanIn_fifo_drop (f : FanIn) (cap : Nat) (buffer : List TradeEvent) (steps : List Step) :
    ((Feed.run cap (Feed.start buffer) steps).attemptsOf f).map (fun p => p.1) =
      inboundOf f steps ∧
    (Feed.run cap (Feed.start buffer) steps).sentBy f =
      (((Feed.run cap (Feed.start buffer) steps).attemptsOf f).filter
        (fun p => decide (p.2 < cap))).map (fun p => stamp f.exchangeName p.1) ∧
    ((Feed.run cap (Feed.start buffer) steps).sentBy f).Sublist
      ((inboundOf f steps).map (stamp f.exchangeName)) ∧
    (∀ t ∈ (Feed.run cap (Feed.start buffer) steps).sentBy f,
      ∃ trade ∈ inboundOf f steps, t = { trade with Exchange := f.exchangeName }) ∧
    buffer ++ (Feed.run cap (Feed.start buffer) steps).sent.map (fun p => p.2) =
      (Feed.run cap (Feed.start buffer) steps).received ++
        (Feed.run cap (Feed.start buffer) steps).buffer := by
  have h := Feed.run_task f cap buffer steps
  have hsub : ((Feed.run cap (Feed.start buffer) steps).sentBy f).Sublist
      ((inboundOf f steps).map (stamp f.exchangeName)) := by
    rw [h.2, ← h.1, List.map_map]
    exact List.Sublist.map _ (List.filter_sublist _)
  refine ⟨h.1, h.2, hsub, ?_, (Feed.run_fifo cap buffer steps).1⟩
  intro t ht
  have hmem := hsub.subset ht
  rw [List.mem_map] at hmem
  obtain ⟨trade, htrade, hst⟩ := hmem
  exact ⟨trade, htrade, hst.symm⟩

/-- Witness of claim C13: on a channel of capacity 1, of two events delivered before the
consumer reads, the first is forwarded and the second is dropped; the consumer receives the
first, stamped `kraken`. -/
theorem fanIn_fifo_drop_witness :
    (Feed.run 1 (Feed.start [])
      [Step.deliver krakenTask (tradeOf "BTCUSDT" 100 1),
       Step.deliver krakenTask (tradeOf "BTCUSDT" 101 2), Step.receive]).sentBy krakenTask =
      [stamp "kraken" (tradeOf "BTCUSDT" 100 1)] ∧
    (Feed.run 1 (Feed.start [])
      [Step.deliver krakenTask (tradeOf "BTCUSDT" 100 1),
       Step.deliver krakenTask (tradeOf "BTCUSDT" 101 2), Step.receive]).received =
      [stamp "kraken" (tradeOf "BTCUSDT" 100 1)] := by
  have h := fanIn_fifo_drop krakenTask 1 []
    [Step.deliver krakenTask (tradeOf "BTCUSDT" 100 1),
     Step.deliver krakenTask (tradeOf "BTCUSDT" 101 2), Step.receive]
  refine ⟨h.2.1.trans (by decide), by decide⟩

/-! ## Theorems: reached aggregator states -/

theorem mapGet_of_mem {β : Type} (l : List (String × β)) (k : String) (v : β)
    (h : (k, v) ∈ l) : ∃ v', mapGet l k = some v' := by
  induction l with
  | nil => cases h
  | cons p l ih =>
    obtain ⟨k', v'⟩ := p
    by_cases hk : k' = k
    · exact ⟨v', by simp [mapGet, hk]⟩
    · rcases List.mem_cons.mp h with h1 | h1
      · exact absurd (congrArg Prod.fst h1).symm hk
      · obtain ⟨w, hw⟩ := ih h1
        exact ⟨w, by simp [mapGet, hk, hw]⟩

theorem mapGet_mapSet_some {β : Type} (l : List (String × β)) (k k' : String) (v x : β)
    (h : mapGet (mapSet l k v) k' = some x) : k' = k ∨ mapGet l k' = some x := by
  by_cases hk : k' = k
  · exact Or.inl hk
  · rw [mapGet_mapSet_ne l k k' v hk] at h
    exact Or.inr h

/-- The fan-in tasks that the loop over the venues starts: for the symbol, feeding the
aggregated channel, with the name of a venue of the list. -/
theorem openStreams_fanIns (symbol : String) (aggCh : Chan) (exs : List (String × Interface)) :
    ∀ a : Aggregator,
      (∀ p ∈ exs, ∃ ex, a.exchangeManager.GetExchange p.1 = some ex) →
      ∀ f ∈ (openStreams symbol aggCh exs a).fanIns,
        f ∈ a.fanIns ∨ (f.symbol = symbol ∧ f.outCh = aggCh ∧
          ∃ ex, a.exchangeManager.GetExchange f.exchangeName = some ex) := by
  induction exs with
  | nil => intro a _ f hf; exact Or.inl hf
  | cons p exs ih =>
    intro a hreg f hf
    obtain ⟨name, ex⟩ := p
    simp only [openStreams] at hf
    have hrest : ∀ q ∈ exs, ∃ ex, a.exchangeManager.GetExchange q.1 = some ex :=
      fun q hq => hreg q (List.mem_cons_of_mem _ hq)
    split at hf
    · exact ih { a with opened := a.opened + 1 } hrest f hf
    · rename_i c _
      rcases ih { a with
          opened := a.opened + 1,
          streams := (mapSet a.streams symbol
            (mapSet ((mapGet a.streams symbol).getD []) name (Chan.inbound c))),
          fanIns := (a.fanIns ++ [FanIn.mk name symbol (Chan.inbound c) aggCh]) }
        hrest f hf with h | h
      · rcases List.mem_append.mp h with h1 | h1
        · exact Or.inl h1
        · rw [List.mem_singleton] at h1
          subst h1
          exact Or.inr ⟨rfl, rfl, hreg (name, ex) (List.mem_cons_self _ _)⟩
      · exact Or.inr h

theorem WellFormed_fresh (em : ExchangeManager) : WellFormed (NewAggregator em) := by
  refine ⟨?_, ?_, ?_, ?_⟩
  · intro f hf; cases hf
  · intro S ch h; simp [NewAggregator, mapGet] at h
  · intro S S' ch h; simp [NewAggregator, mapGet] at h
  · intro S inner h; simp [NewAggregator, mapGet] at h

theorem WellFormed_closes (a : Aggregator) (chs : List Chan) (h : WellFormed a) :
    WellFormed { a with closed := chs } := h

/-- The state after `createStream` registered a new aggregated channel and ran the loop over the
venues is well formed. -/
theorem WellFormed_openStreams (a a1 : Aggregator) (S : String) (h : WellFormed a)
    (hS : mapGet a.aggregated S = none)
    (e1 : a1.aggregated = mapSet a.aggregated S (Chan.made a.made))
    (e2 : a1.made = a.made + 1) (e3 : a1.exchangeManager = a.exchangeManager)
    (e4 : a1.fanIns = a.fanIns) (e5 : a1.streams = mapSet a.streams S []) :
    WellFormed (openStreams S (Chan.made a.made) a1.exchangeManager.GetAllExchanges a1) := by
  obtain ⟨hf, hmade, hinj, hstr⟩ := h
  have hk := openStreams_keeps S (Chan.made a.made) a1.exchangeManager.GetAllExchanges a1
  have hreg : ∀ p ∈ a1.exchangeManager.GetAllExchanges,
      ∃ ex, a1.exchangeManager.GetExchange p.1 = some ex :=
    fun p hp => mapGet_of_mem _ p.1 p.2 hp
  have hfan := openStreams_fanIns S (Chan.made a.made) _ a1 hreg
  refine ⟨?_, ?_, ?_, ?_⟩
  · intro f hfm
    rw [hk.2.2.1, hk.1, e1, e3]
    rcases hfan f hfm with hold | ⟨hsym, hout, hex⟩
    · rw [e4] at hold
      have hfo := hf f hold
      have hne : f.symbol ≠ S := by
        intro e
        have h2 := hfo.2
        rw [e, hS] at h2
        cases h2
      exact ⟨hfo.1, by rw [mapGet_mapSet_ne _ _ _ _ hne]; exact hfo.2⟩
    · rw [e3] at hex
      exact ⟨hex, by rw [hsym, hout]; exact mapGet_mapSet_eq _ _ _⟩
  · intro S' ch hch
    rw [hk.1, e1] at hch
    rw [hk.2.1, e2]
    rcases mapGet_mapSet_some _ _ _ _ _ hch with hEq | hOld
    · rw [hEq, mapGet_mapSet_eq] at hch
      exact ⟨a.made, (Option.some.inj hch).symm, by omega⟩
    · obtain ⟨n, hn, hlt⟩ := hmade S' ch hOld
      exact ⟨n, hn, by omega⟩
  · intro S1 S2 ch h1 h2
    rw [hk.1, e1] at h1 h2
    have fresh : ∀ T, T ≠ S →
        mapGet (mapSet a.aggregated S (Chan.made a.made)) T = some ch →
        ch ≠ Chan.made a.made := by
      intro T hT hget hch
      rw [mapGet_mapSet_ne _ _ _ _ hT] at hget
      obtain ⟨n, hn, hlt⟩ := hmade T ch hget
      rw [hch] at hn
      injection hn with e
      omega
    by_cases c1 : S1 = S
    · by_cases c2 : S2 = S
      · rw [c1, c2]
      · rw [c1, mapGet_mapSet_eq] at h1
        exact absurd (Option.some.inj h1).symm (fresh S2 c2 h2)
    · by_cases c2 : S2 = S
      · rw [c2, mapGet_mapSet_eq] at h2
        exact absurd (Option.some.inj h2).symm (fresh S1 c1 h1)
      · rw [mapGet_mapSet_ne _ _ _ _ c1] at h1
        rw [mapGet_mapSet_ne _ _ _ _ c2] at h2
        exact hinj S1 S2 ch h1 h2
  · intro S' inner hin
    rw [hk.1, e1]
    by_cases c : S' = S
    · rw [c]
      exact ⟨_, mapGet_mapSet_eq _ _ _⟩
    · rw [hk.2.2.2 S' c, e5, mapGet_mapSet_ne _ _ _ _ c] at hin
      obtain ⟨ch, hch⟩ := hstr S' inner hin
      exact ⟨ch, by rw [mapGet_mapSet_ne _ _ _ _ c]; exact hch⟩

/-- The method `GetStream` keeps the aggregator well formed. -/
theorem WellFormed_GetStream (a : Aggregator) (S : String) (h : WellFormed a) :
    WellFormed (GetStream a S).2 := by
  cases hS : mapGet a.aggregated S with
  | some ch => rw [GetStream_existing a S ch hS]; exact h
  | none =>
    simp only [GetStream, createStream, hS]
    exact WellFormed_openStreams a
      { a with
        made := a.made + 1,
        aggregated := (mapSet a.aggregated S (Chan.made a.made)),
        streams := (mapSet a.streams S []) }
      S h hS rfl rfl rfl rfl rfl

/-- A successful `close` adds the channel to the closed ones and changes nothing else. -/
theorem closeChan_ok (a a1 : Aggregator) (ch : Chan) (h : closeChan a ch = Except.ok a1) :
    a1 = { a with closed := ch :: a.closed } ∧ ch ≠ Chan.nil ∧ ch ∉ a.closed := by
  unfold closeChan at h
  split at h
  · cases h
  · split at h
    · cases h
    · rename_i h1 h2
      exact ⟨(Except.ok.inj h).symm, h1, h2⟩

/-- A completed `reconnectStream` leaves the aggregated channels, the channel counter and the
registry as they are; it either starts no task and leaves `streams` as it is, or it replaces the
inbound channel of its pair by the channel of the new stream and starts one fan-in task from
that channel to the aggregated channel of the symbol. -/
theorem reconnectStream_ok (a a' : Aggregator) (name S : String)
    (h : reconnectStream a name S = Except.ok a') :
    a'.aggregated = a.aggregated ∧ a'.made = a.made ∧
    a'.exchangeManager = a.exchangeManager ∧
    ((a'.fanIns = a.fanIns ∧ a'.streams = a.streams) ∨
      ∃ ex c inner, a.exchangeManager.GetExchange name = some ex ∧
        mapGet a.streams S = some inner ∧
        a'.streams = mapSet a.streams S (mapSet inner name (Chan.inbound c)) ∧
        a'.fanIns = a.fanIns ++
          [FanIn.mk name S (Chan.inbound c) ((mapGet a.aggregated S).getD Chan.nil)]) := by
  unfold reconnectStream at h
  cases hex : a.exchangeManager.GetExchange name with
  | none =>
    rw [hex] at h
    cases h
    exact ⟨rfl, rfl, rfl, Or.inl ⟨rfl, rfl⟩⟩
  | some ex =>
    rw [hex] at h
    simp only at h
    generalize hcl : (match mapGet ((mapGet a.streams S).getD []) name with
      | some oldCh => closeChan a oldCh
      | none => Except.ok a) = closing at h
    cases closing with
    | error p => cases h
    | ok a1 =>
      have ha1 : ∃ chs, a1 = { a with closed := chs } := by
        cases hold : mapGet ((mapGet a.streams S).getD []) name with
        | none =>
          rw [hold] at hcl
          exact ⟨a.closed, (Except.ok.inj hcl).symm⟩
        | some oldCh =>
          rw [hold] at hcl
          exact ⟨_, (closeChan_ok a a1 oldCh hcl).1⟩
      obtain ⟨chs, rfl⟩ := ha1
      simp only at h
      cases hst : ex.StreamTrades a.opened S with
      | error e =>
        rw [hst] at h
        cases h
        exact ⟨rfl, rfl, rfl, Or.inl ⟨rfl, rfl⟩⟩
      | ok c =>
        rw [hst] at h
        simp only at h
        cases hin : mapGet a.streams S with
        | none =>
          rw [hin] at h
          cases h
        | some inner =>
          rw [hin] at h
          cases h
          exact ⟨rfl, rfl, rfl, Or.inr ⟨ex, c, inner, rfl, rfl, rfl, rfl⟩⟩

/-- A completed `reconnectStream` keeps the aggregator well formed. -/
theorem WellFormed_reconnect (a a' : Aggregator) (name S : String) (h : WellFormed a)
    (hrec : reconnectStream a name S = Except.ok a') : WellFormed a' := by
  obtain ⟨hf, hmade, hinj, hstr⟩ := h
  obtain ⟨eagg, emade, eem, hcase⟩ := reconnectStream_ok a a' name S hrec
  rcases hcase with ⟨efan, estr⟩ | ⟨ex, c, inner, hex, hin, estr, efan⟩
  · refine ⟨?_, ?_, ?_, ?_⟩
    · intro f hfm
      rw [efan] at hfm
      rw [eem, eagg]
      exact hf f hfm
    · intro S' ch hch
      rw [eagg] at hch
      rw [emade]
      exact hmade S' ch hch
    · intro S1 S2 ch h1 h2
      rw [eagg] at h1 h2
      exact hinj S1 S2 ch h1 h2
    · intro S' inner' hin'
      rw [estr] at hin'
      rw [eagg]
      exact hstr S' inner' hin'
  · obtain ⟨ch, hch⟩ := hstr S inner hin
    refine ⟨?_, ?_, ?_, ?_⟩
    · intro f hfm
      rw [efan] at hfm
      rw [eem, eagg]
      rcases List.mem_append.mp hfm with hold | hnew
      · exact hf f hold
      · rw [List.mem_singleton] at hnew
        rw [hnew]
        refine ⟨⟨ex, hex⟩, ?_⟩
        simp [hch]
    · intro S' ch' hch'
      rw [eagg] at hch'
      rw [emade]
      exact hmade S' ch' hch'
    · intro S1 S2 ch' h1 h2
      rw [eagg] at h1 h2
      exact hinj S1 S2 ch' h1 h2
    · intro S' inner' hin'
      rw [estr] at hin'
      rw [eagg]
      rcases mapGet_mapSet_some _ _ _ _ _ hin' with hEq | hOld
      · rw [hEq]
        exact ⟨ch, hch⟩
      · exact hstr S' inner' hOld

/-- Every reached aggregator state is well formed. -/
theorem Reachable.wellFormed (a : Aggregator) (h : Reachable a) : WellFormed a := by
  induction h with
  | fresh em => exact WellFormed_fresh em
  | subscribe a symbol _ ih => exact WellFormed_GetStream a symbol ih
  | reconnect a a1 exchangeName symbol _ hrec ih =>
    exact WellFormed_reconnect a a1 exchangeName symbol ih hrec
  | venueCloses a ch _ ih => exact WellFormed_closes a (ch :: a.closed) ih

/-- Every event sent on the aggregated channel was delivered to the sending task by its inbound
channel, and differs from the event delivered by the venue name stamped on it only. -/
theorem Feed.run_sent_origin (cap : Nat) (buffer : List TradeEvent) (steps : List Step) :
    ∀ p ∈ (Feed.run cap (Feed.start buffer) steps).sent,
      ∃ trade, Step.deliver p.1 trade ∈ steps ∧ p.2 = stamp p.1.exchangeName trade := by
  induction steps using List.reverseRecOn with
  | nil => intro p hp; cases hp
  | append_singleton steps st ih =>
    intro p hp
    rw [Feed.run_concat] at hp
    have lift : (∃ trade, Step.deliver p.1 trade ∈ steps ∧
        p.2 = stamp p.1.exchangeName trade) →
        ∃ trade, Step.deliver p.1 trade ∈ steps ++ [st] ∧
          p.2 = stamp p.1.exchangeName trade := by
      rintro ⟨trade, hmem, heq⟩
      exact ⟨trade, List.mem_append_left _ hmem, heq⟩
    cases st with
    | receive =>
      rw [(Feed.step_receive cap _).2.1] at hp
      exact lift (ih p hp)
    | deliver g trade =>
      by_cases hroom : (Feed.run cap (Feed.start buffer) steps).buffer.length < cap
      · rw [Feed.step_deliver_room cap _ g trade hroom] at hp
        rcases List.mem_append.mp hp with hold | hnew
        · exact lift (ih p hold)
        · rw [List.mem_singleton] at hnew
          rw [hnew]
          exact ⟨trade, List.mem_append_right _ (List.mem_singleton.mpr rfl), rfl⟩
      · rw [Feed.step_deliver_full cap _ g trade hroom] at hp
        exact lift (ih p hp)

/-! ## Theorems: what the consumer of a symbol receives -/

theorem subscribed_reachable : Reachable subscribed :=
  Reachable.subscribe (NewAggregator registry) "BTCUSDT" (Reachable.fresh registry)

/-- Counterexample to claim C11 as stated: after `GetStream` for `BTCUSDT`, the inbound channel
of the fan-in task of `kraken` delivers an event whose symbol is `ETHUSDT`; the task forwards
it, and the consumer of `BTCUSDT` receives an event whose symbol is not `BTCUSDT`. -/
theorem aggregated_symbol_refuted :
    Reachable subscribed ∧
    mapGet subscribed.aggregated "BTCUSDT" = some (Chan.made 0) ∧
    krakenTask ∈ subscribed.fanIns ∧
    krakenTask.outCh = Chan.made 0 ∧
    krakenTask.symbol = "BTCUSDT" ∧
    (Feed.run aggregatedCapacity (Feed.start [])
      [Step.deliver krakenTask (tradeOf "ETHUSDT" 5 1), Step.receive]).received =
      [stamp "kraken" (tradeOf "ETHUSDT" 5 1)] ∧
    ¬ ∀ ev ∈ (Feed.run aggregatedCapacity (Feed.start [])
      [Step.deliver krakenTask (tradeOf "ETHUSDT" 5 1), Step.receive]).received,
      ev.Symbol = "BTCUSDT" := by
  have hrecv : (Feed.run aggregatedCapacity (Feed.start [])
      [Step.deliver krakenTask (tradeOf "ETHUSDT" 5 1), Step.receive]).received =
      [stamp "kraken" (tradeOf "ETHUSDT" 5 1)] := by decide
  refine ⟨subscribed_reachable, by decide, by decide, rfl, rfl, hrecv, ?_⟩
  rw [hrecv]
  intro h
  have h1 := h (stamp "kraken" (tradeOf "ETHUSDT" 5 1)) (List.mem_singleton.mpr rfl)
  revert h1
  decide

/-- Claim C11, amended. For a reached aggregator state, the aggregated channel `ch` of a symbol
`S` and every schedule of deliveries to the fan-in tasks that feed `ch` and of consumer reads:
every event received on `ch` carries the name of a registered venue, and is an event that the
inbound channel of a task started for `S` delivered, with that name stamped on it and nothing
else changed; so its symbol is the symbol the venue put on it, which is `S` whenever the venues
deliver on each stream only events of the symbol the stream was opened for. -/
theorem aggregated_events_stamped (a : Aggregator) (S : String) (ch : Chan) (cap : Nat)
    (steps : List Step) (hr : Reachable a) (hch : mapGet a.aggregated S = some ch)
    (htasks : ∀ f trade, Step.deliver f trade ∈ steps → f ∈ a.fanIns ∧ f.outCh = ch) :
    ∀ ev ∈ (Feed.run cap (Feed.start []) steps).received,
      (∃ ex, a.exchangeManager.GetExchange ev.Exchange = some ex) ∧
      (∃ f trade, Step.deliver f trade ∈ steps ∧ f.symbol = S ∧
        ev = { trade with Exchange := f.exchangeName }) ∧
      ((∀ f trade, Step.deliver f trade ∈ steps → trade.Symbol = f.symbol) →
        ev.Symbol = S) := by
  intro ev hev
  obtain ⟨hf, _, hinj, _⟩ := Reachable.wellFormed a hr
  have hfifo := (Feed.run_fifo cap [] steps).1
  have hsent : ev ∈ (Feed.run cap (Feed.start []) steps).sent.map (fun p => p.2) := by
    have h1 : ev ∈ (Feed.run cap (Feed.start []) steps).received ++
        (Feed.run cap (Feed.start []) steps).buffer := List.mem_append_left _ hev
    rw [← hfifo] at h1
    simpa using h1
  obtain ⟨p, hp, hpev⟩ := List.mem_map.mp hsent
  obtain ⟨trade, hstep, hstamp⟩ := Feed.run_sent_origin cap [] steps p hp
  obtain ⟨hmem, hout⟩ := htasks p.1 trade hstep
  obtain ⟨hreg, hagg⟩ := hf p.1 hmem
  have hsym : p.1.symbol = S := by
    rw [hout] at hagg
    exact hinj p.1.symbol S ch hagg hch
  have hev2 : ev = { trade with Exchange := p.1.exchangeName } := by
    rw [← hpev, hstamp]
    rfl
  refine ⟨?_, ⟨p.1, trade, hstep, hsym, hev2⟩, ?_⟩
  · rw [hev2]
    exact hreg
  · intro hsymbols
    rw [hev2, ← hsym]
    exact hsymbols p.1 trade hstep

/-- Witness of the amended claim C11: `kraken` delivers a `BTCUSDT` event on its stream for
`BTCUSDT`; the consumer receives it stamped `kraken`, a registered venue. -/
theorem aggregated_events_stamped_witness :
    (Feed.run aggregatedCapacity (Feed.start [])
      [Step.deliver krakenTask (tradeOf "BTCUSDT" 100 1), Step.receive]).received =
      [stamp "kraken" (tradeOf "BTCUSDT" 100 1)] ∧
    (subscribed.exchangeManager.GetExchange "kraken").isSome = true ∧
    (stamp "kraken" (tradeOf "BTCUSDT" 100 1)).Symbol = "BTCUSDT" := by
  have hrecv : (Feed.run aggregatedCapacity (Feed.start [])
      [Step.deliver krakenTask (tradeOf "BTCUSDT" 100 1), Step.receive]).received =
      [stamp "kraken" (tradeOf "BTCUSDT" 100 1)] := by decide
  have h := aggregated_events_stamped subscribed "BTCUSDT" (Chan.made 0) aggregatedCapacity
    [Step.deliver krakenTask (tradeOf "BTCUSDT" 100 1), Step.receive]
    subscribed_reachable (by decide)
    (by
      intro f trade hmem
      simp only [List.mem_cons, List.mem_singleton, List.not_mem_nil, or_false] at hmem
      rcases hmem with hmem | hmem
      · injection hmem with e1 e2
        rw [e1]
        exact ⟨by decide, rfl⟩
      · cases hmem)
    (stamp "kraken" (tradeOf "BTCUSDT" 100 1))
    (by rw [hrecv]; exact List.mem_singleton.mpr rfl)
  obtain ⟨ex, hex⟩ := h.1
  refine ⟨hrecv, ?_, ?_⟩
  · have hname : (stamp "kraken" (tradeOf "BTCUSDT" 100 1)).Exchange = "kraken" := rfl
    rw [hname] at hex
    rw [hex]
    rfl
  · apply h.2.2
    intro f trade hmem
    simp only [List.mem_cons, List.mem_singleton, List.not_mem_nil, or_false] at hmem
    rcases hmem with hmem | hmem
    · injection hmem with e1 e2
      rw [e1, e2]
      rfl
    · cases hmem

/-! ## Theorems: health check -/

/-- The reconnects that `checkStreamHealth` schedules are those of the entries of `streams`
whose channel is nil. -/
theorem checkStreamHealth_mem (a : Aggregator) (name symbol : String) :
    (name, symbol) ∈ checkStreamHealth a ↔
      ∃ inner, (symbol, inner) ∈ a.streams ∧ (name, Chan.nil) ∈ inner := by
  unfold checkStreamHealth
  simp only [List.mem_flatMap, List.mem_filterMap]
  constructor
  · rintro ⟨entry, hentry, p, hp, hsome⟩
    split at hsome
    · rename_i hnil
      injection hsome with e
      injection e with e1 e2
      refine ⟨entry.2, ?_, ?_⟩
      · rw [← e2]
        exact hentry
      · rw [← e1, ← hnil]
        exact hp
    · cases hsome
  · rintro ⟨inner, hentry, hp⟩
    exact ⟨(symbol, inner), hentry, (name, Chan.nil), hp, by simp⟩

theorem terminated_reachable : Reachable terminated :=
  Reachable.venueCloses subscribed (Chan.inbound 1) subscribed_reachable

/-- Claim C12 at its failing input: in the aggregator reached by `GetStream` for `BTCUSDT`,
after the stream of `kraken` terminated and its channel was closed, and with `binance`
registered but absent from the map of inbound channels, `checkStreamHealth` schedules no
reconnect at all. -/
theorem health_check_misses_terminated :
    Reachable terminated ∧
    mapGet ((mapGet terminated.streams "BTCUSDT").getD []) "kraken" =
      some (Chan.inbound 1) ∧
    Chan.inbound 1 ∈ terminated.closed ∧
    (terminated.exchangeManager.GetExchange "binance").isSome = true ∧
    mapGet ((mapGet terminated.streams "BTCUSDT").getD []) "binance" = none ∧
    checkStreamHealth terminated = [] :=
  ⟨terminated_reachable, by decide, by decide, rfl, by decide, by decide⟩

theorem mem_mapSet {β : Type} (l : List (String × β)) (k : String) (v : β) (p : String × β)
    (h : p ∈ mapSet l k v) : p ∈ l ∨ p = (k, v) := by
  induction l with
  | nil =>
    simp only [mapSet, List.mem_singleton] at h
    exact Or.inr h
  | cons q l ih =>
    obtain ⟨k', v'⟩ := q
    by_cases hk : k' = k
    · simp only [mapSet, hk, if_true, List.mem_cons] at h
      rcases h with h | h
      · exact Or.inr h
      · exact Or.inl (List.mem_cons_of_mem _ h)
    · simp only [mapSet, hk, if_false, List.mem_cons] at h
      rcases h with h | h
      · exact Or.inl (by rw [h]; exact List.mem_cons_self _ _)
      · rcases ih h with h1 | h1
        · exact Or.inl (List.mem_cons_of_mem _ h1)
        · exact Or.inr h1

theorem mem_of_mapGet {β : Type} (l : List (String × β)) (k : String) (v : β)
    (h : mapGet l k = some v) : (k, v) ∈ l := by
  induction l with
  | nil => simp [mapGet] at h
  | cons q l ih =>
    obtain ⟨k', v'⟩ := q
    by_cases hk : k' = k
    · simp only [mapGet, hk, if_true, Option.some.injEq] at h
      rw [hk, h]
      exact List.mem_cons_self _ _
    · simp only [mapGet, hk, if_false] at h
      exact List.mem_cons_of_mem _ (ih h)

/-- Recording the channel handed out by a venue keeps `streams` free of other channels. -/
theorem InboundOnly_record (streams : List (String × List (String × Chan)))
    (symbol name : String) (c : Nat)
    (h : ∀ entry ∈ streams, ∀ p ∈ entry.2, ∃ c, p.2 = Chan.inbound c) :
    ∀ entry ∈ mapSet streams symbol
        (mapSet ((mapGet streams symbol).getD []) name (Chan.inbound c)),
      ∀ p ∈ entry.2, ∃ c, p.2 = Chan.inbound c := by
  intro entry hentry p hp
  rcases mem_mapSet _ _ _ _ hentry with hold | hnew
  · exact h entry hold p hp
  · rw [hnew] at hp
    rcases mem_mapSet _ _ _ _ hp with hp1 | hp1
    · cases hget : mapGet streams symbol with
      | none =>
        rw [hget] at hp1
        cases hp1
      | some inner =>
        rw [hget] at hp1
        exact h (symbol, inner) (mem_of_mapGet _ _ _ hget) p hp1
    · exact ⟨c, by rw [hp1]⟩

theorem InboundOnly_openStreams (symbol : String) (aggCh : Chan)
    (exs : List (String × Interface)) :
    ∀ a : Aggregator, InboundOnly a → InboundOnly (openStreams symbol aggCh exs a) := by
  induction exs with
  | nil => intro a h; exact h
  | cons q exs ih =>
    intro a h
    obtain ⟨name, ex⟩ := q
    simp only [openStreams]
    split
    · exact ih { a with opened := a.opened + 1 } h
    · rename_i c _
      exact ih { a with
          opened := a.opened + 1,
          streams := (mapSet a.streams symbol
            (mapSet ((mapGet a.streams symbol).getD []) name (Chan.inbound c))),
          fanIns := (a.fanIns ++ [FanIn.mk name symbol (Chan.inbound c) aggCh]) }
        (InboundOnly_record a.streams symbol name c h)

/-- In every reached aggregator state the inbound channels in `streams` are channels handed out
by venues: none of them is nil. -/
theorem Reachable.inboundOnly (a : Aggregator) (h : Reachable a) : InboundOnly a := by
  induction h with
  | fresh em => intro entry hentry; cases hentry
  | subscribe a symbol _ ih =>
    cases hS : mapGet a.aggregated symbol with
    | some ch => rw [GetStream_existing a symbol ch hS]; exact ih
    | none =>
      simp only [GetStream, createStream, hS]
      apply InboundOnly_openStreams
      intro entry hentry p hp
      rcases mem_mapSet _ _ _ _ hentry with hold | hnew
      · exact ih entry hold p hp
      · rw [hnew] at hp
        cases hp
  | reconnect a a1 exchangeName symbol _ hrec ih =>
    obtain ⟨_, _, _, hcase⟩ := reconnectStream_ok a a1 exchangeName symbol hrec
    rcases hcase with ⟨_, estr⟩ | ⟨ex, c, inner, _, hin, estr, _⟩
    · intro entry hentry
      rw [estr] at hentry
      exact ih entry hentry
    · intro entry hentry
      rw [estr] at hentry
      have hrecord := InboundOnly_record a.streams symbol exchangeName c ih
      rw [hin] at hrecord
      exact hrecord entry hentry
  | venueCloses a ch _ ih => exact ih

/-- In every reached aggregator state `checkStreamHealth` schedules no reconnect, whichever
channels were closed and whichever venues have no inbound channel. -/
theorem checkStreamHealth_reached (a : Aggregator) (h : Reachable a) :
    checkStreamHealth a = [] := by
  rw [List.eq_nil_iff_forall_not_mem]
  rintro ⟨name, symbol⟩ hmem
  obtain ⟨inner, hentry, hp⟩ := (checkStreamHealth_mem a name symbol).mp hmem
  obtain ⟨c, hc⟩ := Reachable.inboundOnly a h (symbol, inner) hentry (name, Chan.nil) hp
  cases hc

/-- A completed `reconnectStream` for a pair of venue and symbol leaves the aggregated channels
as they are, and the inbound channels of every other symbol and of every other venue of the
symbol. -/
theorem reconnectStream_replaces (a a1 : Aggregator) (name S : String)
    (h : reconnectStream a name S = Except.ok a1) :
    a1.aggregated = a.aggregated ∧
    (∀ other, other ≠ S → mapGet a1.streams other = mapGet a.streams other) ∧
    (∀ other, other ≠ name →
      mapGet ((mapGet a1.streams S).getD []) other =
        mapGet ((mapGet a.streams S).getD []) other) := by
  obtain ⟨eagg, _, _, hcase⟩ := reconnectStream_ok a a1 name S h
  rcases hcase with ⟨_, estr⟩ | ⟨ex, c, inner, _, hin, estr, _⟩
  · rw [estr]
    exact ⟨eagg, fun _ _ => rfl, fun _ _ => rfl⟩
  · refine ⟨eagg, ?_, ?_⟩
    · intro other hne
      rw [estr]
      exact mapGet_mapSet_ne _ _ _ _ hne
    · intro other hne
      rw [estr, mapGet_mapSet_eq, hin]
      exact mapGet_mapSet_ne _ _ _ _ hne

end TradeBot
